import Mathlib

/-!
Verification of the LUXBIN photonic codec core
(`src/lib/codec/spectral-compress.ts`, `src/lib/codec/delta-spectral.ts`,
and the symbol remapper `byteToWavelength` from `photonic-transform.ts`).

Byte buffers are modelled as `List Nat`, each entry a byte value (< 256).
Multi-byte integers are little-endian, as stored by `DataView.setUint32`
and `DataView.setUint16` with `littleEndian = true`; stores truncate the
value modulo the field width, exactly as the JS typed setters do.

Reads by `DataView.getUint32` / `getUint16` throw a `RangeError` when they
reach past the end of the buffer, so they are modelled in `Except`.
Plain `Uint8Array` element reads out of range produce `undefined`, which
every consumer in this code base coerces numerically (to 0 when stored
into a `Uint8Array`, to 0 under `>>`, `&`, `|`); those reads are modelled
as `List.getD _ _ 0`, which is observationally identical here.
-/

namespace Luxbin

/-- The 4-byte magic marker "PWDC". -/
def MAGIC : List Nat := [0x50, 0x57, 0x44, 0x43]

/-- Current container format version. -/
def VERSION : Nat := 2

/-- Little-endian 4-byte encoding of a value, as `DataView.setUint32` stores
it (truncating modulo 2^32). -/
def le32 (n : Nat) : List Nat :=
  [n % 256, n / 256 % 256, n / 65536 % 256, n / 16777216 % 256]

/-- Little-endian 2-byte encoding, as `DataView.setUint16` stores it. -/
def le16 (n : Nat) : List Nat :=
  [n % 256, n / 256 % 256]

/-- `Uint8Array` element read; out-of-range reads give `undefined` in JS,
which all consumers coerce to 0. -/
def byteGet (data : List Nat) (i : Nat) : Nat := data.getD i 0

/-- `DataView.getUint32(off, true)`: little-endian read, `RangeError` past
the end of the buffer. -/
def readU32 (data : List Nat) (off : Nat) : Except String Nat :=
  if off + 4 ≤ data.length then
    .ok (byteGet data off + 256 * byteGet data (off + 1) +
      65536 * byteGet data (off + 2) + 16777216 * byteGet data (off + 3))
  else .error "RangeError"

/-- `DataView.getUint16(off, true)`: little-endian read, `RangeError` past
the end of the buffer. -/
def readU16 (data : List Nat) (off : Nat) : Except String Nat :=
  if off + 2 ≤ data.length then
    .ok (byteGet data off + 256 * byteGet data (off + 1))
  else .error "RangeError"

/-- Ceiling of log2, by halving with fuel (`Math.ceil(Math.log2 n)` for
`n ≥ 1`; the fuel argument only makes the recursion structural). -/
def clog2Fuel : Nat → Nat → Nat
  | 0, _ => 0
  | fuel + 1, n => if n ≤ 1 then 0 else clog2Fuel fuel ((n + 1) / 2) + 1

/-- `Math.max(1, Math.ceil(Math.log2(n || 1)))`, the per-symbol index width
in bits used by both the encoder and the decoder. -/
def bitsPerIndex (n : Nat) : Nat := max 1 (clog2Fuel n n)

/-- The symbol remapper `byteToWavelength` from `photonic-transform.ts`:
`380 + (byte / 255) * 400`, an exact rational here. -/
def byteToWavelength (b : Nat) : ℚ := 380 + (b : ℚ) / 255 * 400

/-! ## Single-buffer codec (`spectral-compress.ts`) — encoder -/

/-- The distinct byte values of the input, ordered by `byteToWavelength`.
Since the remapper is strictly monotone (previous lemma), the sort by
wavelength produces exactly the ascending distinct byte values, which is
how the table is written here. -/
def uniqueBytesOf (data : List Nat) : List Nat :=
  (List.range 256).filter (fun b => b ∈ data)

/-- OR a value into one byte of the output buffer
(`output[i] |= v`; an out-of-range typed-array write is a no-op, as is
`List.set` out of range). -/
def orAt (l : List Nat) (i v : Nat) : List Nat :=
  l.set i (l.getD i 0 ||| v)

/-- One bit-packed write of `encodeMode0`: writes `bits` bits of `idx` at
bit position `bitPos` of the packed region starting at byte `s`,
spread across up to three bytes exactly as the source does. -/
def packWrite (out : List Nat) (s bitPos bits idx : Nat) : List Nat :=
  let byteOffset := s + bitPos / 8
  let bitOffset := bitPos % 8
  let out1 := orAt out byteOffset ((idx <<< bitOffset) &&& 255)
  let out2 := if 8 < bitOffset + bits then
      orAt out1 (byteOffset + 1) ((idx >>> (8 - bitOffset)) &&& 255)
    else out1
  if 16 < bitOffset + bits then
    orAt out2 (byteOffset + 2) ((idx >>> (16 - bitOffset)) &&& 255)
  else out2

/-- The bit-packing loop of `encodeMode0` over the symbol-index stream. -/
def packLoop (s bits : Nat) : List Nat → List Nat → Nat → List Nat
  | [], out, _ => out
  | idx :: rest, out, bitPos =>
      packLoop s bits rest (packWrite out s bitPos bits idx) (bitPos + bits)

/-- Mode 0 (symbol table + bit-packed indices): header, version 2, mode 0,
original length, table size, table bytes, then the packed index stream
OR-written into a zero-initialised region. -/
def encodeMode0 (data uniq : List Nat) (bits : Nat) : List Nat :=
  let packedDataSize := (data.length * bits + 7) / 8
  let base := MAGIC ++ [VERSION, 0] ++ le32 data.length ++ le16 uniq.length
      ++ uniq ++ List.replicate packedDataSize 0
  packLoop (12 + uniq.length) bits (data.map (fun b => uniq.indexOf b)) base 0

/-- The run-coalescing loop of `encodeMode1`: walk the remaining bytes,
extending the current `(index, count)` run while the symbol index repeats
and the count stays below 65535, else emitting the run. -/
def rleLoop (uniq : List Nat) : List Nat → Nat → Nat → List (Nat × Nat)
  | [], cur, cnt => [(cur, cnt)]
  | b :: rest, cur, cnt =>
      let idx := uniq.indexOf b
      if idx = cur ∧ cnt < 65535 then rleLoop uniq rest cur (cnt + 1)
      else (cur, cnt) :: rleLoop uniq rest idx 1

/-- One stored run record: the symbol index (1 byte when
`runBytesPerIndex = 1`, else a little-endian uint16) then a 2-byte count. -/
def runRecord (rbpi : Nat) (r : Nat × Nat) : List Nat :=
  (if rbpi = 1 then [r.1 % 256] else le16 r.1) ++ le16 r.2

/-- Mode 1 (symbol table + RLE): header, version 2, mode 1, original
length, table size, table bytes, run count, then the run records.
Only called on nonempty data (`compress` returns earlier when empty). -/
def encodeMode1 (data uniq : List Nat) (bits : Nat) : List Nat :=
  match data with
  | [] => []
  | d :: rest =>
    let runs := rleLoop uniq rest (uniq.indexOf d) 1
    let rbpi := (bits + 7) / 8
    MAGIC ++ [VERSION, 1] ++ le32 data.length ++ le16 uniq.length ++ uniq
      ++ le32 runs.length ++ runs.flatMap (runRecord rbpi)

/-- Mode 255 (raw passthrough): header, version 2, mode 255, original
length, then the input verbatim. -/
def encodeRaw (data : List Nat) : List Nat :=
  MAGIC ++ [VERSION, 255] ++ le32 data.length ++ data

/-- `compress`: empty input gets the fixed 11-byte empty container;
otherwise try mode 0 and mode 1, keep the smaller (ties favour mode 0),
and fall back to raw passthrough when the best candidate reaches
`data.length + 10` bytes. -/
def compress (data : List Nat) : List Nat :=
  if data.length = 0 then MAGIC ++ [VERSION, 0, 0, 0, 0, 0, 0]
  else
    let uniq := uniqueBytesOf data
    let bits := bitsPerIndex uniq.length
    let mode0 := encodeMode0 data uniq bits
    let mode1 := encodeMode1 data uniq bits
    let best := if mode0.length ≤ mode1.length then mode0 else mode1
    if data.length + 10 ≤ best.length then encodeRaw data else best

/-! ## Single-buffer codec — decoder -/

/-- One symbol read of `decompressMode0` at bit position `bitPos`:
read up to three bytes, shift, mask, and look the index up in the table. -/
def unpackOne (compressed : List Nat) (s bits mask bitPos : Nat)
    (uniq : List Nat) : Nat :=
  let byteOffset := s + bitPos / 8
  let bitOffset := bitPos % 8
  let idx0 := (byteGet compressed byteOffset >>> bitOffset) &&& mask
  let idx1 := if 8 < bitOffset + bits ∧ byteOffset + 1 < compressed.length then
      (idx0 ||| ((byteGet compressed (byteOffset + 1) <<< (8 - bitOffset)) &&& mask)) &&& mask
    else idx0
  let idx2 := if 16 < bitOffset + bits ∧ byteOffset + 2 < compressed.length then
      (idx1 ||| ((byteGet compressed (byteOffset + 2) <<< (16 - bitOffset)) &&& mask)) &&& mask
    else idx1
  uniq.getD idx2 0

/-- The symbol loop of `decompressMode0`: produce `count` output bytes,
advancing the bit cursor by `bits` per symbol. -/
def unpackLoop (compressed : List Nat) (s bits mask : Nat) (uniq : List Nat) :
    Nat → Nat → List Nat
  | 0, _ => []
  | count + 1, bitPos =>
      unpackOne compressed s bits mask bitPos uniq ::
        unpackLoop compressed s bits mask uniq count (bitPos + bits)

/-- `decompressMode0`: recompute the index width from the table size and
unpack `originalSize` symbols from the packed region at `packedStart`. -/
def decompressMode0 (compressed : List Nat) (packedStart originalSize : Nat)
    (uniq : List Nat) : List Nat :=
  let bits := bitsPerIndex uniq.length
  let mask := (1 <<< bits) - 1
  unpackLoop compressed packedStart bits mask uniq originalSize 0

/-- The run-record loop shared verbatim by `decompressMode1` and
`decompressV1`: read `numRuns` records, expanding each into
`min count (room left)` copies of the table value; a record whose bytes
run past the buffer raises `RangeError` at the `getUint16` count read. -/
def readRunsLoop (compressed : List Nat) (rbpi : Nat) (uniq : List Nat)
    (originalSize : Nat) : Nat → Nat → List Nat → Except String (List Nat)
  | 0, _, out => .ok out
  | numRuns + 1, off, out =>
    if rbpi = 1 then
      let index := byteGet compressed off
      match readU16 compressed (off + 1) with
      | .error e => .error e
      | .ok count =>
        let byteVal := uniq.getD index 0
        let toAdd := min count (originalSize - out.length)
        readRunsLoop compressed rbpi uniq originalSize numRuns (off + 3)
          (out ++ List.replicate toAdd byteVal)
    else
      match readU16 compressed off with
      | .error e => .error e
      | .ok index =>
        match readU16 compressed (off + 2) with
        | .error e => .error e
        | .ok count =>
          let byteVal := uniq.getD index 0
          let toAdd := min count (originalSize - out.length)
          readRunsLoop compressed rbpi uniq originalSize numRuns (off + 4)
            (out ++ List.replicate toAdd byteVal)

/-- `decompressMode1`: derive the record index width from the table size,
read the run count, expand the runs; the output buffer is preallocated at
`originalSize` zero bytes, so unfilled positions remain 0. -/
def decompressMode1 (compressed : List Nat) (off originalSize : Nat)
    (uniq : List Nat) : Except String (List Nat) :=
  let bits := bitsPerIndex uniq.length
  let rbpi := (bits + 7) / 8
  match readU32 compressed off with
  | .error e => .error e
  | .ok numRuns =>
    match readRunsLoop compressed rbpi uniq originalSize numRuns (off + 4) [] with
    | .error e => .error e
    | .ok out => .ok (out ++ List.replicate (originalSize - out.length) 0)

/-- `decompressV1` (legacy format): header at fixed offsets, 2-byte table
size, explicit stored index width, 5-byte table entries (value byte plus
4 skipped frequency bytes), then the same run loop as mode 1. -/
def decompressV1 (compressed : List Nat) : Except String (List Nat) :=
  match readU32 compressed 5 with
  | .error e => .error e
  | .ok originalSize =>
    if originalSize = 0 then .ok []
    else match readU16 compressed 9 with
    | .error e => .error e
    | .ok uniqueCount =>
      let bitsPI := byteGet compressed 11
      let uniq := (List.range uniqueCount).map (fun i => byteGet compressed (12 + 5 * i))
      let rbpi := (bitsPI + 7) / 8
      let off := 12 + 5 * uniqueCount
      match readU32 compressed off with
      | .error e => .error e
      | .ok numRuns =>
        match readRunsLoop compressed rbpi uniq originalSize numRuns (off + 4) [] with
        | .error e => .error e
        | .ok out => .ok (out ++ List.replicate (originalSize - out.length) 0)

/-- `decompress`: length guard, magic check, version dispatch (2 = modern,
1 = legacy), then the mode dispatch of the modern format. -/
def decompress (compressed : List Nat) : Except String (List Nat) :=
  if compressed.length < 10 then .error "Invalid PWDC data: too short"
  else if ¬(byteGet compressed 0 = 0x50 ∧ byteGet compressed 1 = 0x57 ∧
      byteGet compressed 2 = 0x44 ∧ byteGet compressed 3 = 0x43) then
    .error "Invalid PWDC data: bad magic"
  else
    let version := byteGet compressed 4
    if version ≠ VERSION ∧ version ≠ 1 then .error "Unsupported PWDC version"
    else if version = 1 then decompressV1 compressed
    else
      let mode := byteGet compressed 5
      match readU32 compressed 6 with
      | .error e => .error e
      | .ok originalSize =>
        if originalSize = 0 then .ok []
        else if mode = 255 then .ok ((compressed.drop 10).take originalSize)
        else
          match readU16 compressed 10 with
          | .error e => .error e
          | .ok uniqueCount =>
            let uniq := (List.range uniqueCount).map (fun i => byteGet compressed (12 + i))
            if mode = 0 then
              .ok (decompressMode0 compressed (12 + uniqueCount) originalSize uniq)
            else if mode = 1 then
              decompressMode1 compressed (12 + uniqueCount) originalSize uniq
            else .error "Unknown PWDC mode"

/-! ## Frame-sequence codec (`delta-spectral.ts`) -/

/-- A delta frame: positions where bytes differ and the new values there.
The source stores positions in a `Uint32Array`; all positions produced by
`computeDelta` are `< current.length`, so for buffers below 2^32 bytes the
stored and the abstract positions coincide. -/
structure DeltaFrame where
  positions : List Nat
  values : List Nat
deriving Repr, DecidableEq

/-- `computeDelta`: positions `< min` length where the buffers differ, then
every position of the part of `current` extending past `previous`; values
are `current` at those positions. -/
def computeDelta (previous current : List Nat) : DeltaFrame :=
  let minLen := min previous.length current.length
  let pos := (List.range minLen).filter
        (fun i => byteGet previous i ≠ byteGet current i)
      ++ List.range' minLen (current.length - minLen)
  { positions := pos, values := pos.map (fun i => byteGet current i) }

/-- `applyDelta`: copy `previous` truncated/zero-extended to `newLength`,
then overwrite each listed position with its new value (a `Uint8Array`
store truncates modulo 256; missing values read as `undefined` and store
as 0, which `getD _ _ 0 % 256` reproduces). -/
def applyDelta (previous : List Nat) (delta : DeltaFrame) (newLength : Nat) :
    List Nat :=
  (List.range delta.positions.length).foldl
    (fun res i => res.set (delta.positions.getD i 0) (delta.values.getD i 0 % 256))
    (previous.take newLength ++
      List.replicate (newLength - min previous.length newLength) 0)

/-- A Key unit: tag 'K', compressed length, original length, then the
single-buffer container. -/
def keyUnit (frame : List Nat) : List Nat :=
  let compressed := compress frame
  [0x4b] ++ le32 compressed.length ++ le32 frame.length ++ compressed

/-- A Delta unit: tag 'D', change count, positions byte length, compressed
values length, the positions as raw little-endian uint32s, then the
PWDC-compressed values. -/
def deltaUnit (delta : DeltaFrame) : List Nat :=
  let compressedValues := compress delta.values
  let posBytes := delta.positions.flatMap le32
  [0x44] ++ le32 delta.positions.length ++ le32 posBytes.length
    ++ le32 compressedValues.length ++ posBytes ++ compressedValues

/-- The per-frame loop of `compressFrameSequence`: a keyframe every `k`
frames; otherwise a delta against the reference frame, promoted to a
keyframe when more than half the positions changed
(`changes / len > 0.5` in JS floats, i.e. `len < 2 * changes`).
The reference is only consulted after frame 0, which is always a
keyframe, so `ref.getD []` never supplies the placeholder for `k ≥ 1`. -/
def seqLoop (k : Nat) : List (List Nat) → Nat → Option (List Nat) → List Nat
  | [], _, _ => []
  | f :: rest, i, ref =>
    if i % k = 0 then keyUnit f ++ seqLoop k rest (i + 1) (some f)
    else
      let delta := computeDelta (ref.getD []) f
      if f.length < 2 * delta.positions.length then
        keyUnit f ++ seqLoop k rest (i + 1) (some f)
      else deltaUnit delta ++ seqLoop k rest (i + 1) ref

/-- `compressFrameSequence`: empty list gives an empty stream; otherwise an
8-byte header (frame count, keyframe interval) followed by the units. -/
def compressFrameSequence (frames : List (List Nat)) (k : Nat) : List Nat :=
  if frames.length = 0 then []
  else le32 frames.length ++ le32 k ++ seqLoop k frames 0 none

/-- Read element `j` of a positions byte array as a little-endian uint32
(`Uint32Array` element access on a little-endian platform). -/
def readPos (bytes : List Nat) (j : Nat) : Nat :=
  byteGet bytes (4 * j) + 256 * byteGet bytes (4 * j + 1) +
    65536 * byteGet bytes (4 * j + 2) + 16777216 * byteGet bytes (4 * j + 3)

/-- The unit loop of `decompressFrameSequence`. A Key unit decodes the
embedded container and replaces the reference; a Delta unit rebuilds the
positions, decodes the values, and applies the delta onto the reference at
the reference's length. A Delta unit with no reference frame fails (the
source dereferences `null`, a TypeError) after its reads succeed, in
evaluation order. Constructing the `Uint32Array` view fails when the
positions slice is shorter than `4 * numChanges`. Unknown tags advance one
byte and emit nothing, as the if/else-if chain does. -/
def readFrames (data : List Nat) :
    Nat → Nat → Option (List Nat) → List (List Nat) →
    Except String (List (List Nat))
  | 0, _, _, acc => .ok acc
  | n + 1, off, ref, acc =>
    let type := byteGet data off
    if type = 0x4b then
      match readU32 data (off + 1) with
      | .error e => .error e
      | .ok compressedSize =>
        let compressed := (data.drop (off + 9)).take compressedSize
        match decompress compressed with
        | .error e => .error e
        | .ok frame =>
          readFrames data n (off + 9 + compressedSize) (some frame) (acc ++ [frame])
    else if type = 0x44 then
      match readU32 data (off + 1) with
      | .error e => .error e
      | .ok numChanges =>
        match readU32 data (off + 5) with
        | .error e => .error e
        | .ok posSize =>
          match readU32 data (off + 9) with
          | .error e => .error e
          | .ok valSize =>
            let posBytes := (data.drop (off + 13)).take posSize
            let compressedValues := (data.drop (off + 13 + posSize)).take valSize
            if 4 * numChanges ≤ posBytes.length then
              let positions := (List.range numChanges).map (readPos posBytes)
              match decompress compressedValues with
              | .error e => .error e
              | .ok values =>
                match ref with
                | none => .error "TypeError: referenceFrame is null"
                | some r =>
                  let frame := applyDelta r ⟨positions, values⟩ r.length
                  readFrames data n (off + 13 + posSize + valSize) ref (acc ++ [frame])
            else .error "RangeError: invalid typed array length"
    else readFrames data n (off + 1) ref acc

/-- `decompressFrameSequence`: empty input gives the empty list; otherwise
read the frame count, skip the stored keyframe interval, and run the unit
loop with no reference frame. -/
def decompressFrameSequence (data : List Nat) :
    Except String (List (List Nat)) :=
  if data.length = 0 then .ok []
  else match readU32 data 0 with
  | .error e => .error e
  | .ok frameCount => readFrames data frameCount 8 none []

/-- Bit `j` of a byte region: bit `j % 8` of byte `j / 8`. Used to state
the correctness of the bit-packing loop. -/
def regionBit (out : List Nat) (j : Nat) : Bool :=
  (byteGet out (j / 8)).testBit (j % 8)

/-! ## Container builders

Following the container layouts of the spec (§6), for the
legacy-compatibility and run-exhaustion claims. These are the inputs the
decoder claims quantify over; `decompress` itself is modelled from the
source above. -/

/-- A modern mode-1 (SymbolRLE) container: magic, version 2, mode 1,
original length, table size, table bytes, run count, then 3-byte run
records (1-byte symbol index, 2-byte little-endian run length). -/
def mkMode1Container (origLen : Nat) (table : List Nat)
    (runs : List (Nat × Nat)) : List Nat :=
  MAGIC ++ [2, 1] ++ le32 origLen ++ le16 table.length ++ table
    ++ le32 runs.length ++ runs.flatMap (runRecord 1)

/-- A legacy (format_version 1) container for the same symbol table and
run records: magic, version 1, original length, table size, explicit
index width byte, 5-byte table entries (value byte then 4 frequency
bytes), run count, then the same 3-byte run records. -/
def mkLegacyContainer (origLen : Nat) (table : List Nat)
    (freqs : List (List Nat)) (w : Nat) (runs : List (Nat × Nat)) : List Nat :=
  MAGIC ++ [1] ++ le32 origLen ++ le16 table.length ++ [w]
    ++ (table.zip freqs).flatMap (fun p => p.1 :: p.2)
    ++ le32 runs.length ++ runs.flatMap (runRecord 1)

/-! ## Byte-level reading lemmas -/

/-- The remapper is strictly monotone, so sorting distinct byte values by
wavelength is the same as sorting them in ascending numeric order, which is
how `uniqueBytesOf` produces the symbol table. -/
theorem byteToWavelength_lt_byteToWavelength {a b : Nat} (h : a < b) :
    byteToWavelength a < byteToWavelength b := by
  unfold byteToWavelength
  have hq : (a : ℚ) < (b : ℚ) := by exact_mod_cast h
  linarith

theorem byteGet_drop (l : List Nat) (m n : Nat) :
    byteGet (l.drop m) n = byteGet l (m + n) := by
  simp [byteGet, List.getD_eq_getElem?_getD, List.getElem?_drop]

theorem byteGet_append_left {xs : List Nat} (ys : List Nat) {n : Nat}
    (h : n < xs.length) : byteGet (xs ++ ys) n = byteGet xs n :=
  List.getD_append xs ys 0 n h

theorem byteGet_append_right {xs : List Nat} (ys : List Nat) {n : Nat}
    (h : xs.length ≤ n) : byteGet (xs ++ ys) n = byteGet ys (n - xs.length) :=
  List.getD_append_right xs ys 0 n h

@[simp] theorem length_le32 (n : Nat) : (le32 n).length = 4 := rfl

@[simp] theorem length_le16 (n : Nat) : (le16 n).length = 2 := rfl

theorem byteGet_of_drop {data : List Nat} {off : Nat} {b : Nat} {rest : List Nat}
    (h : data.drop off = b :: rest) : byteGet data off = b := by
  have := byteGet_drop data off 0
  rw [h] at this
  simpa [byteGet] using this.symm

/-- Advance past a parsed chunk: if the bytes at `off` start with `chunk`,
the bytes at `off + chunk.length` are the remainder. -/
theorem drop_of_drop {data : List Nat} {l : List Nat} {rest : List Nat} {off c : Nat}
    (h : data.drop off = l ++ rest) (hc : l.length = c) :
    data.drop (off + c) = rest := by
  rw [← List.drop_drop, h, List.drop_left' hc]

theorem length_sub_of_drop {data chunk rest : List Nat} {off : Nat}
    (h : data.drop off = chunk ++ rest) :
    data.length - off = chunk.length + rest.length := by
  have := congrArg List.length h
  simpa [List.length_drop] using this

theorem byteGet_self_of_drop {data : List Nat} {off : Nat} {rest : List Nat}
    (h : data.drop off = rest) (j : Nat) : byteGet data (off + j) = byteGet rest j := by
  rw [← byteGet_drop, h]

theorem readU32_of_drop {d : List Nat} {o v : Nat} {r : List Nat}
    (h : d.drop o = le32 v ++ r) :
    readU32 d o = .ok (v % 4294967296) := by
  have hlen := length_sub_of_drop h
  simp only [length_le32] at hlen
  have h0 : byteGet d o = v % 256 := by
    have := byteGet_self_of_drop h 0
    rw [Nat.add_zero] at this
    rw [this]; rfl
  have h1 : byteGet d (o + 1) = v / 256 % 256 := by rw [byteGet_self_of_drop h]; rfl
  have h2 : byteGet d (o + 2) = v / 65536 % 256 := by rw [byteGet_self_of_drop h]; rfl
  have h3 : byteGet d (o + 3) = v / 16777216 % 256 := by rw [byteGet_self_of_drop h]; rfl
  unfold readU32
  rw [if_pos (by omega), h0, h1, h2, h3]
  congr 1
  omega

theorem readU16_of_drop {d : List Nat} {o v : Nat} {r : List Nat}
    (h : d.drop o = le16 v ++ r) :
    readU16 d o = .ok (v % 65536) := by
  have hlen := length_sub_of_drop h
  simp only [length_le16] at hlen
  have h0 : byteGet d o = v % 256 := by
    have := byteGet_self_of_drop h 0
    rw [Nat.add_zero] at this
    rw [this]; rfl
  have h1 : byteGet d (o + 1) = v / 256 % 256 := by rw [byteGet_self_of_drop h]; rfl
  unfold readU16
  rw [if_pos (by omega), h0, h1]
  congr 1
  omega

/-- Slice out a chunk of known length: `data.slice(off, off + n)`. -/
theorem take_drop_of_drop {data chunk rest : List Nat} {off : Nat}
    (h : data.drop off = chunk ++ rest) :
    (data.drop off).take chunk.length = chunk := by
  rw [h, List.take_left' rfl]

/-! ## Index-width lemmas -/

theorem le_two_pow_clog2Fuel : ∀ fuel n, n ≤ fuel → n ≤ 2 ^ clog2Fuel fuel n := by
  intro fuel
  induction fuel with
  | zero => intro n h; interval_cases n <;> simp [clog2Fuel]
  | succ f ih =>
    intro n h
    by_cases h1 : n ≤ 1
    · simpa [clog2Fuel, h1] using h1.trans (by norm_num)
    · have hrec := ih ((n + 1) / 2) (by omega)
      simp only [clog2Fuel, h1, if_false]
      calc n ≤ 2 * ((n + 1) / 2) := by omega
        _ ≤ 2 * 2 ^ clog2Fuel f ((n + 1) / 2) := by omega
        _ = 2 ^ (clog2Fuel f ((n + 1) / 2) + 1) := by ring

theorem clog2Fuel_le : ∀ fuel n k, n ≤ 2 ^ k → clog2Fuel fuel n ≤ k := by
  intro fuel
  induction fuel with
  | zero => intro n k _; simp [clog2Fuel]
  | succ f ih =>
    intro n k hk
    by_cases h1 : n ≤ 1
    · simp [clog2Fuel, h1]
    · have hkpos : 1 ≤ k := by
        by_contra hc
        push_neg at hc
        interval_cases k
        · simp at hk; omega
      simp only [clog2Fuel, h1, if_false]
      have : (n + 1) / 2 ≤ 2 ^ (k - 1) := by
        have h2 : 2 ^ k = 2 * 2 ^ (k - 1) := by
          conv_lhs => rw [show k = (k - 1) + 1 by omega]
          ring
        omega
      have := ih ((n + 1) / 2) (k - 1) this
      omega

/-- The table size never exceeds its width capacity: `n ≤ 2 ^ bitsPerIndex n`. -/
theorem le_two_pow_bitsPerIndex (n : Nat) : n ≤ 2 ^ bitsPerIndex n := by
  have h := le_two_pow_clog2Fuel n n le_rfl
  have : 2 ^ clog2Fuel n n ≤ 2 ^ bitsPerIndex n :=
    Nat.pow_le_pow_right (by norm_num) (le_max_right _ _)
  omega

theorem bitsPerIndex_pos (n : Nat) : 1 ≤ bitsPerIndex n := le_max_left _ _

theorem bitsPerIndex_le_eight {n : Nat} (h : n ≤ 256) : bitsPerIndex n ≤ 8 := by
  have h8 := clog2Fuel_le n n 8 (by norm_num; omega)
  simp only [bitsPerIndex]
  omega

@[simp] theorem length_encodeRaw (data : List Nat) :
    (encodeRaw data).length = 10 + data.length := by
  simp [encodeRaw, MAGIC]
  omega

/-! ## Claim theorems: simple cases -/

/-- C9: for every input shorter than 10 bytes, `decompress` fails with the
"too short" error — raised before the magic marker or any other field is
inspected, whatever the content — and no buffer is returned. -/
theorem C9_decompress_short_input_rejected (data : List Nat)
    (h : data.length < 10) :
    decompress data = .error "Invalid PWDC data: too short" := by
  unfold decompress
  rw [if_pos h]

/-- C9 witness: a 3-byte input (with a correct magic head) is rejected as
too short. -/
theorem C9_witness :
    decompress [0x50, 0x57, 0x44] = .error "Invalid PWDC data: too short" :=
  C9_decompress_short_input_rejected [0x50, 0x57, 0x44] (by decide)

/-- C10: `compressFrameSequence` on the empty frame list emits a
zero-length stream with no 8-byte header, and `decompressFrameSequence`
on zero-length input returns the empty frame list, so the empty sequence
round-trips through a headerless container. -/
theorem C10_empty_sequence_roundtrip (k : Nat) :
    compressFrameSequence [] k = [] ∧ decompressFrameSequence [] = .ok [] :=
  ⟨rfl, rfl⟩

/-- C10 witness: the empty sequence round-trips at keyframe interval 5. -/
theorem C10_witness :
    compressFrameSequence [] 5 = [] ∧ decompressFrameSequence [] = .ok [] :=
  C10_empty_sequence_roundtrip 5

/-- C3 counterexample: on the empty buffer the compressed output is 11
bytes, exceeding the claimed `len(B) + 10 = 10` bound. -/
theorem C3_counterexample :
    ¬ ((compress ([] : List Nat)).length ≤ ([] : List Nat).length + 10) := by
  decide

/-- C3 amended: the empty buffer compresses to exactly 11 bytes (one more
than the claimed bound); every nonempty buffer satisfies
`len(compress(B)) ≤ len(B) + 10`. -/
theorem C3_compress_length_bound (B : List Nat) :
    (B = [] → (compress B).length = 11) ∧
      (B ≠ [] → (compress B).length ≤ B.length + 10) := by
  constructor
  · rintro rfl; rfl
  · intro hne
    unfold compress
    rw [if_neg (by simpa using hne)]
    dsimp only
    split <;> split
    all_goals first
      | (rw [length_encodeRaw]; omega)
      | omega

/-- C3 witness: the bounds of the amended claim at the empty buffer and at
a concrete nonempty buffer. -/
theorem C3_witness :
    (compress ([] : List Nat)).length = 11 ∧
      (compress [7]).length ≤ [7].length + 10 :=
  ⟨(C3_compress_length_bound []).1 rfl,
    (C3_compress_length_bound [7]).2 (by decide)⟩

/-- C8 counterexample: for the 15-byte buffer "AAAAABBBBBCCCCC" the mode
byte of the compressed container is not 1 (RLE) and the output is not
shorter than 15 bytes. -/
theorem C8_counterexample :
    ¬ (byteGet (compress [65, 65, 65, 65, 65, 66, 66, 66, 66, 66,
        67, 67, 67, 67, 67]) 5 = 1 ∧
      (compress [65, 65, 65, 65, 65, 66, 66, 66, 66, 66,
        67, 67, 67, 67, 67]).length < 15) := by
  decide

/-- C8 amended: for the bytes of "AAAAABBBBBCCCCC", `compress` selects
mode 0 (SymbolPacked, because the 19-byte packed candidate beats the
28-byte RLE candidate), the output is 19 bytes (larger than the input but
below the raw-fallback threshold of 25), and `decompress` restores the
original 15 bytes exactly. -/
theorem C8_aaa_scenario :
    byteGet (compress [65, 65, 65, 65, 65, 66, 66, 66, 66, 66,
        67, 67, 67, 67, 67]) 5 = 0 ∧
      (compress [65, 65, 65, 65, 65, 66, 66, 66, 66, 66,
        67, 67, 67, 67, 67]).length = 19 ∧
      decompress (compress [65, 65, 65, 65, 65, 66, 66, 66, 66, 66,
        67, 67, 67, 67, 67]) =
        .ok [65, 65, 65, 65, 65, 66, 66, 66, 66, 66, 67, 67, 67, 67, 67] :=
  ⟨by decide, by decide, rfl⟩

/-- C5 counterexample: a well-formed mode-1 container with
`original_length = 2` whose single run record yields only one byte is
decoded without any failure, returning the zero-padded buffer `[65, 0]`
rather than raising a hard error. -/
theorem C5_counterexample :
    decompress [0x50, 0x57, 0x44, 0x43, 2, 1, 2, 0, 0, 0, 1, 0, 65,
      1, 0, 0, 0, 0, 1, 0] = .ok [65, 0] := rfl

/-- C2 counterexample: for the two frames `[0,0,0,0]` and `[0,0,0]` of
different lengths and keyframe interval 2, the round trip does not return
the original list (the delta frame is rebuilt at the reference frame's
length, yielding `[0,0,0,0]` twice). -/
theorem C2_counterexample :
    decompressFrameSequence
        (compressFrameSequence [[0, 0, 0, 0], [0, 0, 0]] 2) ≠
      .ok [[0, 0, 0, 0], [0, 0, 0]] := by
  intro h
  rw [show decompressFrameSequence
        (compressFrameSequence [[0, 0, 0, 0], [0, 0, 0]] 2) =
      Except.ok [[0, 0, 0, 0], [0, 0, 0, 0]] from rfl] at h
  simp only [Except.ok.injEq] at h
  exact absurd h (by decide)

/-- Processing a Delta unit with no reference frame decoded yet always
fails: every read either raises its own range error or the final
`applyDelta` call dereferences the null reference. -/
theorem readFrames_delta_no_ref (data : List Nat) (n off : Nat)
    (acc : List (List Nat)) (htag : byteGet data off = 0x44) :
    ∃ e, readFrames data (n + 1) off none acc = .error e := by
  unfold readFrames
  simp only [htag]
  norm_num
  rcases h1 : readU32 data (off + 1) with e1 | nc
  · exact ⟨e1, by simp only [h1]⟩
  simp only [h1]
  rcases h2 : readU32 data (off + 5) with e2 | ps
  · exact ⟨e2, by simp only [h2]⟩
  simp only [h2]
  rcases h3 : readU32 data (off + 9) with e3 | vs
  · exact ⟨e3, by simp only [h3]⟩
  simp only [h3]
  split
  · rcases h4 : decompress ((data.drop (off + 13 + ps)).take vs) with e4 | vals
    · exact ⟨e4, by simp only [h4]⟩
    · exact ⟨"TypeError: referenceFrame is null", by simp only [h4]⟩
  · exact ⟨"RangeError: invalid typed array length", rfl⟩

/-- C6: for every frame-sequence container with a positive frame count
whose first unit is tagged as a Delta unit (so a Delta unit is reached
before any Key unit has been decoded), `decompressFrameSequence` fails
with an error; it never emits a silently zero-filled frame. -/
theorem C6_delta_before_key_fails (data : List Nat) (fc : Nat)
    (hfc : readU32 data 0 = .ok fc) (hpos : 0 < fc)
    (htag : byteGet data 8 = 0x44) :
    ∃ e, decompressFrameSequence data = .error e := by
  have hlen : ¬ data.length = 0 := by
    intro h0
    unfold readU32 at hfc
    rw [if_neg (by omega)] at hfc
    exact Except.noConfusion hfc
  unfold decompressFrameSequence
  rw [if_neg hlen, hfc]
  obtain ⟨m, rfl⟩ : ∃ m, fc = m + 1 := ⟨fc - 1, by omega⟩
  exact readFrames_delta_no_ref data m 8 [] htag

/-- C6 witness: a 9-byte stream declaring one frame whose single unit is
tagged 'D' fails to decode. -/
theorem C6_witness :
    ∃ e, decompressFrameSequence [1, 0, 0, 0, 9, 9, 9, 9, 0x44] = .error e :=
  C6_delta_before_key_fails [1, 0, 0, 0, 9, 9, 9, 9, 0x44] 1 rfl
    (by decide) (by decide)

/-! ## Delta-frame correctness -/

theorem getD_set_ne {l : List Nat} {i j : Nat} (h : i ≠ j) (v : Nat) :
    (l.set i v).getD j 0 = l.getD j 0 := by
  simp [List.getD_eq_getElem?_getD, List.getElem?_set_ne h]

theorem getD_set_self {l : List Nat} {j : Nat} (h : j < l.length) (v : Nat) :
    (l.set j v).getD j 0 = v := by
  simp [List.getD_eq_getElem?_getD, List.getElem?_set_self h]

theorem getD_take {P : List Nat} {n j : Nat} (h : j < n) :
    (P.take n).getD j 0 = P.getD j 0 := by
  simp [List.getD_eq_getElem?_getD, List.getElem?_take, h]

/-- The position-overwrite fold of `applyDelta` preserves the buffer
length. -/
theorem applyDelta_fold_length (ps vs : List Nat) :
    ∀ (l : List Nat) (init : List Nat),
      (l.foldl (fun res i => res.set (ps.getD i 0) (vs.getD i 0 % 256))
        init).length = init.length := by
  intro l
  induction l with
  | nil => intro init; rfl
  | cons a tl ih =>
    intro init
    simpa [List.foldl_cons] using ih (init.set (ps.getD a 0) (vs.getD a 0 % 256))

/-- A buffer position touched by none of the listed writes keeps its
initial value. -/
theorem applyDelta_fold_getD_not_mem (ps vs : List Nat) :
    ∀ (l : List Nat) (init : List Nat) (j : Nat),
      (∀ t ∈ l, ps.getD t 0 ≠ j) →
      (l.foldl (fun res i => res.set (ps.getD i 0) (vs.getD i 0 % 256))
        init).getD j 0 = init.getD j 0 := by
  intro l
  induction l with
  | nil => intro init j _; rfl
  | cons a tl ih =>
    intro init j hnone
    rw [List.foldl_cons, ih _ j (fun t ht => hnone t (List.mem_cons_of_mem a ht)),
      getD_set_ne (hnone a (List.mem_cons_self a tl))]

/-- A buffer position written exactly once ends with the written value. -/
theorem applyDelta_fold_getD_mem (ps vs : List Nat) :
    ∀ (l : List Nat) (init : List Nat) (j t : Nat),
      t ∈ l → ps.getD t 0 = j →
      (∀ t' ∈ l, t' ≠ t → ps.getD t' 0 ≠ j) → l.Nodup → j < init.length →
      (l.foldl (fun res i => res.set (ps.getD i 0) (vs.getD i 0 % 256))
        init).getD j 0 = vs.getD t 0 % 256 := by
  intro l
  induction l with
  | nil => intro _ _ _ h; exact absurd h (List.not_mem_nil _)
  | cons a tl ih =>
    intro init j t htmem hpt huniq hnd hj
    rw [List.foldl_cons]
    rcases List.mem_cons.mp htmem with rfl | htl
    · have hnotl : ∀ t' ∈ tl, ps.getD t' 0 ≠ j := by
        intro t' ht'
        have hne : t' ≠ t := by
          intro h
          subst h
          exact (List.nodup_cons.mp hnd).1 ht'
        exact huniq t' (List.mem_cons_of_mem t ht') hne
      rw [applyDelta_fold_getD_not_mem ps vs tl _ j hnotl, hpt,
        getD_set_self hj]
    · have hane : ps.getD a 0 ≠ j := by
        apply huniq a (List.mem_cons_self a tl)
        intro h
        subst h
        exact (List.nodup_cons.mp hnd).1 htl
      exact ih (init.set (ps.getD a 0) (vs.getD a 0 % 256)) j t htl hpt
        (fun t' ht' => huniq t' (List.mem_cons_of_mem a ht'))
        (List.nodup_cons.mp hnd).2 (by simpa using hj)

/-- Membership in the positions of a delta frame: either a differing
position below the common length, or a position in the extension of the
current buffer past the reference. -/
theorem computeDelta_mem_positions (P C : List Nat) (j : Nat) :
    j ∈ (computeDelta P C).positions ↔
      (j < min P.length C.length ∧ byteGet P j ≠ byteGet C j) ∨
        (min P.length C.length ≤ j ∧ j < C.length) := by
  simp only [computeDelta, List.mem_append, List.mem_filter, List.mem_range,
    List.mem_range']
  constructor
  · rintro (⟨h1, h2⟩ | ⟨i, hi, rfl⟩)
    · exact Or.inl ⟨h1, by simpa using h2⟩
    · exact Or.inr ⟨by omega, by omega⟩
  · rintro (⟨h1, h2⟩ | ⟨h1, h2⟩)
    · exact Or.inl ⟨h1, by simpa using h2⟩
    · exact Or.inr ⟨j - min P.length C.length, by omega, by omega⟩

theorem computeDelta_positions_nodup (P C : List Nat) :
    (computeDelta P C).positions.Nodup := by
  simp only [computeDelta]
  apply List.Nodup.append
  · exact (List.nodup_range _).filter _
  · exact List.nodup_range' _ _
  · rw [List.disjoint_left]
    intro a ha hb
    rw [List.mem_filter, List.mem_range] at ha
    rw [List.mem_range'] at hb
    omega

theorem computeDelta_positions_lt (P C : List Nat) :
    ∀ j ∈ (computeDelta P C).positions, j < C.length := by
  intro j hj
  rcases (computeDelta_mem_positions P C j).mp hj with ⟨h, _⟩ | ⟨_, h⟩
  · omega
  · exact h

theorem computeDelta_values_getD (P C : List Nat) {t : Nat}
    (ht : t < (computeDelta P C).positions.length) :
    (computeDelta P C).values.getD t 0 =
      byteGet C ((computeDelta P C).positions.getD t 0) := by
  have hv : (computeDelta P C).values =
      (computeDelta P C).positions.map (fun i => byteGet C i) := rfl
  rw [hv, List.getD_eq_getElem _ 0 (by simpa using ht), List.getElem_map,
    List.getD_eq_getElem _ 0 ht]

/-- The core delta-frame invariant: applying the delta between `previous`
and `current` onto `previous`, at `current`'s length, reproduces
`current` exactly — for any relative lengths of the two buffers. -/
theorem applyDelta_computeDelta (P C : List Nat)
    (hC : ∀ b ∈ C, b < 256) :
    applyDelta P (computeDelta P C) C.length = C := by
  have hbase : (P.take C.length ++
      List.replicate (C.length - min P.length C.length) 0).length = C.length := by
    simp
    omega
  have hlen : (applyDelta P (computeDelta P C) C.length).length = C.length := by
    unfold applyDelta
    rw [applyDelta_fold_length]
    exact hbase
  apply List.ext_getElem hlen
  intro j hj1 hj2
  rw [← List.getD_eq_getElem _ 0 hj1, ← List.getD_eq_getElem _ 0 hj2]
  rw [hlen] at hj1
  set ps := (computeDelta P C).positions with hps
  set vs := (computeDelta P C).values with hvs
  unfold applyDelta
  by_cases hmem : j ∈ ps
  · obtain ⟨t, htlt, hpt⟩ := List.mem_iff_getElem.mp hmem
    have hptD : ps.getD t 0 = j := by rw [List.getD_eq_getElem _ _ htlt, hpt]
    have huniq : ∀ t' ∈ List.range ps.length, t' ≠ t → ps.getD t' 0 ≠ j := by
      intro t' ht' hne
      rw [List.mem_range] at ht'
      rw [List.getD_eq_getElem _ _ ht']
      intro hcontra
      exact hne ((computeDelta_positions_nodup P C).getElem_inj_iff.mp
        (hcontra.trans hpt.symm))
    rw [applyDelta_fold_getD_mem ps vs (List.range ps.length) _ j t
      (List.mem_range.mpr htlt) hptD huniq (List.nodup_range _)
      (by rw [hbase]; exact hj1)]
    rw [computeDelta_values_getD P C htlt, hptD]
    have hjC : C.getD j 0 ∈ C := by
      rw [List.getD_eq_getElem _ _ hj1]
      exact C.getElem_mem _
    rw [byteGet]
    exact Nat.mod_eq_of_lt (hC _ hjC)
  · have hnone : ∀ t ∈ List.range ps.length, ps.getD t 0 ≠ j := by
      intro t ht hcontra
      rw [List.mem_range] at ht
      exact hmem (hcontra ▸ (List.getD_eq_getElem _ _ ht ▸ ps.getElem_mem _))
    rw [applyDelta_fold_getD_not_mem ps vs (List.range ps.length) _ j hnone]
    have hnm := hmem
    rw [hps, computeDelta_mem_positions] at hnm
    push_neg at hnm
    have hjmin : j < min P.length C.length := by
      rcases Nat.lt_or_ge j (min P.length C.length) with h | h
      · exact h
      · exact absurd hj1 (by have := hnm.2 h; omega)
    have heq : byteGet P j = byteGet C j := by
      by_contra hne
      exact hne (hnm.1 hjmin)
    rw [List.getD_append _ _ _ _ (by simp; omega), getD_take hj1]
    calc P.getD j 0 = byteGet P j := rfl
      _ = byteGet C j := heq
      _ = C.getD j 0 := rfl

/-- C4: for every reference buffer `P` and current byte buffer `C`
(lengths may differ), applying `computeDelta P C` to `P` at `C`'s length
reproduces `C` exactly. -/
theorem C4_applyDelta_computeDelta (P C : List Nat)
    (hC : ∀ b ∈ C, b < 256) :
    applyDelta P (computeDelta P C) C.length = C :=
  applyDelta_computeDelta P C hC

/-- C4 witness: a shrinking frame with a changed byte is reproduced from
its longer reference. -/
theorem C4_witness :
    applyDelta [1, 2, 3, 4] (computeDelta [1, 2, 3, 4] [9, 2, 7])
      [9, 2, 7].length = [9, 2, 7] :=
  C4_applyDelta_computeDelta [1, 2, 3, 4] [9, 2, 7] (by decide)

/-! ## Run-record parsing -/

/-- Reading a serialized list of 3-byte run records expands each run in
full (provided the output target leaves room for every run). -/
theorem readRunsLoop_parse (uniq : List Nat) (origSize : Nat) :
    ∀ (runs : List (Nat × Nat)) (c : List Nat) (off : Nat) (out : List Nat)
      (rest : List Nat),
      c.drop off = runs.flatMap (runRecord 1) ++ rest →
      (∀ r ∈ runs, r.1 < 256 ∧ r.2 < 65536) →
      out.length + (runs.map Prod.snd).sum ≤ origSize →
      readRunsLoop c 1 uniq origSize runs.length off out =
        .ok (out ++ runs.flatMap (fun r => List.replicate r.2 (uniq.getD r.1 0))) := by
  intro runs
  induction runs with
  | nil =>
    intro c off out rest _ _ _
    simp [readRunsLoop]
  | cons r tl ih =>
    intro c off out rest h hb hs
    obtain ⟨i, cnt⟩ := r
    have hib : i < 256 := (hb (i, cnt) (List.mem_cons_self _ _)).1
    have hcb : cnt < 65536 := (hb (i, cnt) (List.mem_cons_self _ _)).2
    have hrec : c.drop off =
        i % 256 :: (le16 cnt ++ (tl.flatMap (runRecord 1) ++ rest)) := by
      rw [h, List.flatMap_cons]
      simp [runRecord, le16]
    have hbyte : byteGet c off = i := by
      rw [byteGet_of_drop hrec, Nat.mod_eq_of_lt hib]
    have hdrop1 : c.drop (off + 1) = le16 cnt ++ (tl.flatMap (runRecord 1) ++ rest) :=
      drop_of_drop (l := [i % 256]) hrec rfl
    have hcnt : readU16 c (off + 1) = .ok cnt := by
      rw [readU16_of_drop hdrop1, Nat.mod_eq_of_lt hcb]
    have hdrop3 : c.drop (off + 3) = tl.flatMap (runRecord 1) ++ rest := by
      have h2 := drop_of_drop hdrop1 (length_le16 cnt)
      have h3 : off + 1 + 2 = off + 3 := by omega
      rwa [h3] at h2
    have hsum : out.length + cnt + (tl.map Prod.snd).sum ≤ origSize := by
      simp only [List.map_cons, List.sum_cons] at hs
      omega
    show readRunsLoop c 1 uniq origSize (tl.length + 1) off out = _
    unfold readRunsLoop
    simp only [if_pos rfl, hcnt, hbyte]
    have hmin : min cnt (origSize - out.length) = cnt := by omega
    rw [hmin]
    rw [ih c (off + 3) (out ++ List.replicate cnt (uniq.getD i 0)) rest hdrop3
      (fun r hr => hb r (List.mem_cons_of_mem _ hr)) (by simp; omega)]
    simp [List.flatMap_cons]

/-- `readRunsLoop` depends only on the bytes at and after its offset. -/
theorem readU16_congr {c1 c2 : List Nat} {off1 off2 : Nat}
    (h : c1.drop off1 = c2.drop off2) : readU16 c1 off1 = readU16 c2 off2 := by
  have hlen : c1.length - off1 = c2.length - off2 := by
    have := congrArg List.length h
    simpa [List.length_drop] using this
  have hb : ∀ j, byteGet c1 (off1 + j) = byteGet c2 (off2 + j) := by
    intro j
    rw [← byteGet_drop, ← byteGet_drop, h]
  unfold readU16
  by_cases hle : off1 + 2 ≤ c1.length
  · rw [if_pos hle, if_pos (by omega)]
    have h0 := hb 0
    rw [Nat.add_zero, Nat.add_zero] at h0
    rw [h0, hb 1]
  · rw [if_neg hle, if_neg (by omega)]

theorem readRunsLoop_congr (rbpi : Nat) (uniq : List Nat) (origSize : Nat) :
    ∀ (n : Nat) (c1 c2 : List Nat) (off1 off2 : Nat) (out : List Nat),
      c1.drop off1 = c2.drop off2 →
      readRunsLoop c1 rbpi uniq origSize n off1 out =
        readRunsLoop c2 rbpi uniq origSize n off2 out := by
  intro n
  induction n with
  | zero => intro _ _ _ _ _ _; rfl
  | succ m ih =>
    intro c1 c2 off1 off2 out h
    have hb0 : byteGet c1 off1 = byteGet c2 off2 := by
      have h1 := byteGet_drop c1 off1 0
      have h2 := byteGet_drop c2 off2 0
      rw [Nat.add_zero] at h1 h2
      rw [← h1, ← h2, h]
    have hdropj : ∀ j, c1.drop (off1 + j) = c2.drop (off2 + j) := by
      intro j
      rw [← List.drop_drop, ← List.drop_drop, h]
    unfold readRunsLoop
    by_cases hr : rbpi = 1
    · simp only [if_pos hr]
      rw [hb0, readU16_congr (hdropj 1)]
      rcases h16 : readU16 c2 (off2 + 1) with e | cnt
      · rfl
      · exact ih c1 c2 (off1 + 3) (off2 + 3) _ (hdropj 3)
    · simp only [if_neg hr]
      rw [readU16_congr h, readU16_congr (hdropj 2)]
      rcases h16 : readU16 c2 off2 with e | idx
      · rfl
      · rcases h16b : readU16 c2 (off2 + 2) with e | cnt
        · rfl
        · exact ih c1 c2 (off1 + 4) (off2 + 4) _ (hdropj 4)

/-! ## Modern-container dispatch lemmas -/

theorem decompress_v2_mode1_dispatch (o m : Nat) (tail : List Nat)
    (ho : o % 4294967296 ≠ 0) :
    decompress (MAGIC ++ [2, 1] ++ le32 o ++ le16 m ++ tail) =
      decompressMode1 (MAGIC ++ [2, 1] ++ le32 o ++ le16 m ++ tail)
        (12 + m % 65536) (o % 4294967296)
        ((List.range (m % 65536)).map
          (fun i => byteGet (MAGIC ++ [2, 1] ++ le32 o ++ le16 m ++ tail) (12 + i))) := by
  have hlen : (MAGIC ++ [2, 1] ++ le32 o ++ le16 m ++ tail).length = 12 + tail.length := by
    simp [MAGIC]
    omega
  have hshort : ¬ (MAGIC ++ [2, 1] ++ le32 o ++ le16 m ++ tail).length < 10 := by
    rw [hlen]; omega
  have h32 : readU32 (MAGIC ++ [2, 1] ++ le32 o ++ le16 m ++ tail) 6 =
      .ok (o % 4294967296) :=
    readU32_of_drop (r := le16 m ++ tail) rfl
  have h16 : readU16 (MAGIC ++ [2, 1] ++ le32 o ++ le16 m ++ tail) 10 =
      .ok (m % 65536) :=
    readU16_of_drop (r := tail) rfl
  simp only [decompress, hshort, if_false, h32, h16,
    show byteGet (MAGIC ++ [2, 1] ++ le32 o ++ le16 m ++ tail) 0 = 0x50 from rfl,
    show byteGet (MAGIC ++ [2, 1] ++ le32 o ++ le16 m ++ tail) 1 = 0x57 from rfl,
    show byteGet (MAGIC ++ [2, 1] ++ le32 o ++ le16 m ++ tail) 2 = 0x44 from rfl,
    show byteGet (MAGIC ++ [2, 1] ++ le32 o ++ le16 m ++ tail) 3 = 0x43 from rfl,
    show byteGet (MAGIC ++ [2, 1] ++ le32 o ++ le16 m ++ tail) 4 = 2 from rfl,
    show byteGet (MAGIC ++ [2, 1] ++ le32 o ++ le16 m ++ tail) 5 = 1 from rfl,
    VERSION, ho, if_false]
  norm_num

theorem decompress_v2_mode0_dispatch (o m : Nat) (tail : List Nat)
    (ho : o % 4294967296 ≠ 0) :
    decompress (MAGIC ++ [2, 0] ++ le32 o ++ le16 m ++ tail) =
      .ok (decompressMode0 (MAGIC ++ [2, 0] ++ le32 o ++ le16 m ++ tail)
        (12 + m % 65536) (o % 4294967296)
        ((List.range (m % 65536)).map
          (fun i => byteGet (MAGIC ++ [2, 0] ++ le32 o ++ le16 m ++ tail) (12 + i)))) := by
  have hlen : (MAGIC ++ [2, 0] ++ le32 o ++ le16 m ++ tail).length = 12 + tail.length := by
    simp [MAGIC]
    omega
  have hshort : ¬ (MAGIC ++ [2, 0] ++ le32 o ++ le16 m ++ tail).length < 10 := by
    rw [hlen]; omega
  have h32 : readU32 (MAGIC ++ [2, 0] ++ le32 o ++ le16 m ++ tail) 6 =
      .ok (o % 4294967296) :=
    readU32_of_drop (r := le16 m ++ tail) rfl
  have h16 : readU16 (MAGIC ++ [2, 0] ++ le32 o ++ le16 m ++ tail) 10 =
      .ok (m % 65536) :=
    readU16_of_drop (r := tail) rfl
  simp only [decompress, hshort, if_false, h32, h16,
    show byteGet (MAGIC ++ [2, 0] ++ le32 o ++ le16 m ++ tail) 0 = 0x50 from rfl,
    show byteGet (MAGIC ++ [2, 0] ++ le32 o ++ le16 m ++ tail) 1 = 0x57 from rfl,
    show byteGet (MAGIC ++ [2, 0] ++ le32 o ++ le16 m ++ tail) 2 = 0x44 from rfl,
    show byteGet (MAGIC ++ [2, 0] ++ le32 o ++ le16 m ++ tail) 3 = 0x43 from rfl,
    show byteGet (MAGIC ++ [2, 0] ++ le32 o ++ le16 m ++ tail) 4 = 2 from rfl,
    show byteGet (MAGIC ++ [2, 0] ++ le32 o ++ le16 m ++ tail) 5 = 0 from rfl,
    VERSION, ho, if_false]
  norm_num

theorem decompress_v2_raw_dispatch (o : Nat) (data : List Nat)
    (ho : o % 4294967296 ≠ 0) :
    decompress (MAGIC ++ [2, 255] ++ le32 o ++ data) =
      .ok (data.take (o % 4294967296)) := by
  have hlen : (MAGIC ++ [2, 255] ++ le32 o ++ data).length = 10 + data.length := by
    simp [MAGIC]
    omega
  have hshort : ¬ (MAGIC ++ [2, 255] ++ le32 o ++ data).length < 10 := by
    rw [hlen]; omega
  have h32 : readU32 (MAGIC ++ [2, 255] ++ le32 o ++ data) 6 =
      .ok (o % 4294967296) :=
    readU32_of_drop (r := data) rfl
  simp only [decompress, hshort, if_false, h32,
    show byteGet (MAGIC ++ [2, 255] ++ le32 o ++ data) 0 = 0x50 from rfl,
    show byteGet (MAGIC ++ [2, 255] ++ le32 o ++ data) 1 = 0x57 from rfl,
    show byteGet (MAGIC ++ [2, 255] ++ le32 o ++ data) 2 = 0x44 from rfl,
    show byteGet (MAGIC ++ [2, 255] ++ le32 o ++ data) 3 = 0x43 from rfl,
    show byteGet (MAGIC ++ [2, 255] ++ le32 o ++ data) 4 = 2 from rfl,
    show byteGet (MAGIC ++ [2, 255] ++ le32 o ++ data) 5 = 255 from rfl,
    VERSION, ho, if_false]
  norm_num
  rfl

/-- Reading the symbol table back out of a container recovers it. -/
theorem parse_table {C table tail : List Nat} {base : Nat}
    (h : C.drop base = table ++ tail) :
    (List.range table.length).map (fun i => byteGet C (base + i)) = table := by
  apply List.ext_getElem (by simp)
  intro i h1 h2
  simp only [List.getElem_map, List.getElem_range]
  rw [byteGet_self_of_drop h i, byteGet_append_left _ h2, byteGet,
    List.getD_eq_getElem _ _ h2]

/-- The length of an expanded run list is the sum of the run counts. -/
theorem expand_runs_length (runs : List (Nat × Nat)) (f : Nat → Nat) :
    (runs.flatMap (fun r => List.replicate r.2 (f r.1))).length =
      (runs.map Prod.snd).sum := by
  induction runs with
  | nil => rfl
  | cons r tl ih => simp [List.flatMap_cons, ih]

/-- Decoding a well-formed mode-1 container expands its runs and
zero-fills whatever part of `original_length` they do not cover. -/
theorem decompress_mkMode1Container (origLen : Nat) (table : List Nat)
    (runs : List (Nat × Nat))
    (hN : table.length ≤ 256)
    (ho0 : 0 < origLen) (ho : origLen < 4294967296)
    (hR : runs.length < 4294967296)
    (hb : ∀ r ∈ runs, r.1 < 256 ∧ r.2 < 65536)
    (hsum : (runs.map Prod.snd).sum ≤ origLen) :
    decompress (mkMode1Container origLen table runs) =
      .ok (runs.flatMap (fun r => List.replicate r.2 (table.getD r.1 0)) ++
        List.replicate (origLen - (runs.map Prod.snd).sum) 0) := by
  have hC : mkMode1Container origLen table runs =
      MAGIC ++ [2, 1] ++ le32 origLen ++ le16 table.length ++
        (table ++ (le32 runs.length ++ runs.flatMap (runRecord 1))) := by
    simp [mkMode1Container, List.append_assoc]
  have homod : origLen % 4294967296 = origLen := Nat.mod_eq_of_lt ho
  have hmmod : table.length % 65536 = table.length := Nat.mod_eq_of_lt (by omega)
  rw [hC, decompress_v2_mode1_dispatch _ _ _ (by omega)]
  have hdrop12 : (MAGIC ++ [2, 1] ++ le32 origLen ++ le16 table.length ++
      (table ++ (le32 runs.length ++ runs.flatMap (runRecord 1)))).drop 12 =
      table ++ (le32 runs.length ++ runs.flatMap (runRecord 1)) := rfl
  rw [hmmod, homod, parse_table hdrop12]
  unfold decompressMode1
  have hbits1 := bitsPerIndex_pos table.length
  have hbits8 := bitsPerIndex_le_eight hN
  have hrbpi : (bitsPerIndex table.length + 7) / 8 = 1 := by omega
  have hdropN : (MAGIC ++ [2, 1] ++ le32 origLen ++ le16 table.length ++
      (table ++ (le32 runs.length ++ runs.flatMap (runRecord 1)))).drop
        (12 + table.length) =
      le32 runs.length ++ runs.flatMap (runRecord 1) :=
    drop_of_drop hdrop12 rfl
  have hruns32 : readU32 (MAGIC ++ [2, 1] ++ le32 origLen ++ le16 table.length ++
      (table ++ (le32 runs.length ++ runs.flatMap (runRecord 1)))) (12 + table.length) =
      .ok runs.length := by
    rw [readU32_of_drop hdropN, Nat.mod_eq_of_lt hR]
  have hdropRec : (MAGIC ++ [2, 1] ++ le32 origLen ++ le16 table.length ++
      (table ++ (le32 runs.length ++ runs.flatMap (runRecord 1)))).drop
        (12 + table.length + 4) =
      runs.flatMap (runRecord 1) ++ [] := by
    rw [List.append_nil]
    exact drop_of_drop hdropN (length_le32 runs.length)
  have hloop := readRunsLoop_parse table origLen runs _ (12 + table.length + 4) [] []
    hdropRec hb (by simpa using hsum)
  simp only [hrbpi, hruns32, hloop]
  rw [List.nil_append, expand_runs_length runs (fun i => table.getD i 0)]

/-- C5 amended: a mode-1 container whose run records lie within the buffer
but produce fewer than `original_length` bytes decodes without error to a
buffer of `original_length` whose unproduced tail is zero-filled. -/
theorem C5_decompress_mode1_zero_pads (origLen : Nat) (table : List Nat)
    (runs : List (Nat × Nat))
    (hN : table.length ≤ 256)
    (ho0 : 0 < origLen) (ho : origLen < 4294967296)
    (hR : runs.length < 4294967296)
    (hb : ∀ r ∈ runs, r.1 < 256 ∧ r.2 < 65536)
    (hsum : (runs.map Prod.snd).sum ≤ origLen) :
    decompress (mkMode1Container origLen table runs) =
      .ok (runs.flatMap (fun r => List.replicate r.2 (table.getD r.1 0)) ++
        List.replicate (origLen - (runs.map Prod.snd).sum) 0) :=
  decompress_mkMode1Container origLen table runs hN ho0 ho hR hb hsum

/-- C5 amended witness: a container with `original_length = 2` and a
single 1-byte run decodes to the zero-padded `[65, 0]`. -/
theorem C5_witness :
    decompress (mkMode1Container 2 [65] [(0, 1)]) =
      .ok ([(0, 1)].flatMap (fun r => List.replicate r.2 ([65].getD r.1 0)) ++
        List.replicate (2 - ([(0, 1)].map Prod.snd).sum) 0) :=
  C5_decompress_mode1_zero_pads 2 [65] [(0, 1)] (by decide) (by decide)
    (by decide) (by decide) (by decide) (by decide)

/-! ## Legacy-container lemmas -/

theorem decompress_v2_mode1_empty_dispatch (o m : Nat) (tail : List Nat)
    (ho : o % 4294967296 = 0) :
    decompress (MAGIC ++ [2, 1] ++ le32 o ++ le16 m ++ tail) = .ok [] := by
  have hlen : (MAGIC ++ [2, 1] ++ le32 o ++ le16 m ++ tail).length = 12 + tail.length := by
    simp [MAGIC]
    omega
  have hshort : ¬ (MAGIC ++ [2, 1] ++ le32 o ++ le16 m ++ tail).length < 10 := by
    rw [hlen]; omega
  have h32 : readU32 (MAGIC ++ [2, 1] ++ le32 o ++ le16 m ++ tail) 6 =
      .ok (o % 4294967296) :=
    readU32_of_drop (r := le16 m ++ tail) rfl
  simp only [decompress, hshort, if_false, h32,
    show byteGet (MAGIC ++ [2, 1] ++ le32 o ++ le16 m ++ tail) 0 = 0x50 from rfl,
    show byteGet (MAGIC ++ [2, 1] ++ le32 o ++ le16 m ++ tail) 1 = 0x57 from rfl,
    show byteGet (MAGIC ++ [2, 1] ++ le32 o ++ le16 m ++ tail) 2 = 0x44 from rfl,
    show byteGet (MAGIC ++ [2, 1] ++ le32 o ++ le16 m ++ tail) 3 = 0x43 from rfl,
    show byteGet (MAGIC ++ [2, 1] ++ le32 o ++ le16 m ++ tail) 4 = 2 from rfl,
    show byteGet (MAGIC ++ [2, 1] ++ le32 o ++ le16 m ++ tail) 5 = 1 from rfl,
    VERSION, ho, if_true]
  norm_num

theorem decompress_v1_dispatch (tail : List Nat) (htail : 5 ≤ tail.length) :
    decompress (MAGIC ++ [1] ++ tail) = decompressV1 (MAGIC ++ [1] ++ tail) := by
  have hlen : (MAGIC ++ [1] ++ tail).length = 5 + tail.length := by
    simp [MAGIC]
    omega
  have hshort : ¬ (MAGIC ++ [1] ++ tail).length < 10 := by
    rw [hlen]; omega
  simp only [decompress, hshort, if_false,
    show byteGet (MAGIC ++ [1] ++ tail) 0 = 0x50 from rfl,
    show byteGet (MAGIC ++ [1] ++ tail) 1 = 0x57 from rfl,
    show byteGet (MAGIC ++ [1] ++ tail) 2 = 0x44 from rfl,
    show byteGet (MAGIC ++ [1] ++ tail) 3 = 0x43 from rfl,
    show byteGet (MAGIC ++ [1] ++ tail) 4 = 1 from rfl,
    VERSION]
  norm_num

/-- The interleaved legacy symbol table region occupies 5 bytes per entry. -/
theorem interleave_length :
    ∀ (table : List Nat) (freqs : List (List Nat)),
      freqs.length = table.length → (∀ f ∈ freqs, f.length = 4) →
      ((table.zip freqs).flatMap (fun p => p.1 :: p.2)).length = 5 * table.length := by
  intro table
  induction table with
  | nil => intro freqs _ _; simp
  | cons v tv ih =>
    intro freqs hlen hf
    cases freqs with
    | nil => simp at hlen
    | cons f tf =>
      have hflen : f.length = 4 := hf f (List.mem_cons_self _ _)
      simp only [List.zip_cons_cons, List.flatMap_cons, List.length_append,
        List.length_cons]
      rw [ih tf (by simpa using hlen) (fun g hg => hf g (List.mem_cons_of_mem _ hg)),
        hflen]
      ring

/-- Parsing the legacy 5-byte-stride symbol table recovers the stored
values, whatever the interleaved frequency bytes contain. -/
theorem legacy_table_parse :
    ∀ (table : List Nat) (freqs : List (List Nat)) (C : List Nat) (base : Nat)
      (tail : List Nat),
      freqs.length = table.length → (∀ f ∈ freqs, f.length = 4) →
      C.drop base = (table.zip freqs).flatMap (fun p => p.1 :: p.2) ++ tail →
      (List.range table.length).map (fun i => byteGet C (base + 5 * i)) = table := by
  intro table
  induction table with
  | nil => intro freqs C base tail _ _ _; simp
  | cons v tv ih =>
    intro freqs C base tail hlen hf h
    cases freqs with
    | nil => simp at hlen
    | cons f tf =>
      have hflen : f.length = 4 := hf f (List.mem_cons_self _ _)
      have hrec : C.drop base =
          (v :: f) ++ ((tv.zip tf).flatMap (fun p => p.1 :: p.2) ++ tail) := by
        simpa [List.zip_cons_cons, List.flatMap_cons, List.append_assoc] using h
      have hv : byteGet C base = v := byteGet_of_drop hrec
      have hdrop : C.drop (base + 5) =
          (tv.zip tf).flatMap (fun p => p.1 :: p.2) ++ tail :=
        drop_of_drop hrec (by simp [hflen])
      have htv := ih tf C (base + 5) tail (by simpa using hlen)
        (fun g hg => hf g (List.mem_cons_of_mem _ hg)) hdrop
      show (List.range (tv.length + 1)).map (fun i => byteGet C (base + 5 * i)) = v :: tv
      rw [List.range_succ_eq_map, List.map_cons]
      have hhead : byteGet C (base + 5 * 0) = v := by simpa using hv
      rw [hhead, List.map_map]
      have hcomp : List.map ((fun i => byteGet C (base + 5 * i)) ∘ Nat.succ)
          (List.range tv.length) =
          List.map (fun i => byteGet C (base + 5 + 5 * i)) (List.range tv.length) := by
        apply List.map_congr_left
        intro i _
        simp only [Function.comp_apply, Nat.succ_eq_add_one]
        congr 1
        omega
      rw [hcomp, htv]

/-- C7: a legacy (format_version 1) container — 5-byte symbol-table
entries whose 4 frequency bytes are arbitrary, and an explicitly stored
index width (any value in 1..8, as the legacy writer stored) — decodes to
exactly the same buffer as the modern mode-1 container carrying the same
original length, symbol table and run records; in particular the output
is independent of the frequency bytes. -/
theorem C7_legacy_decodes_like_modern (origLen w : Nat) (table : List Nat)
    (freqs : List (List Nat)) (runs : List (Nat × Nat))
    (hN : table.length ≤ 256)
    (hw1 : 1 ≤ w) (hw8 : w ≤ 8)
    (hf : freqs.length = table.length)
    (hf4 : ∀ f ∈ freqs, f.length = 4) :
    decompress (mkLegacyContainer origLen table freqs w runs) =
      decompress (mkMode1Container origLen table runs) := by
  have hCleg : mkLegacyContainer origLen table freqs w runs =
      MAGIC ++ [1] ++ (le32 origLen ++ (le16 table.length ++ ([w] ++
        ((table.zip freqs).flatMap (fun p => p.1 :: p.2) ++
          (le32 runs.length ++ runs.flatMap (runRecord 1)))))) := by
    simp [mkLegacyContainer, List.append_assoc]
  have hCm : mkMode1Container origLen table runs =
      MAGIC ++ [2, 1] ++ le32 origLen ++ le16 table.length ++
        (table ++ (le32 runs.length ++ runs.flatMap (runRecord 1))) := by
    simp [mkMode1Container, List.append_assoc]
  have hmmod : table.length % 65536 = table.length := Nat.mod_eq_of_lt (by omega)
  by_cases ho : origLen % 4294967296 = 0
  · rw [hCleg, hCm, decompress_v2_mode1_empty_dispatch _ _ _ ho,
      decompress_v1_dispatch _ (by simp; omega)]
    have h5 : readU32 (MAGIC ++ [1] ++ (le32 origLen ++ (le16 table.length ++ ([w] ++
        ((table.zip freqs).flatMap (fun p => p.1 :: p.2) ++
          (le32 runs.length ++ runs.flatMap (runRecord 1))))))) 5 =
        .ok (origLen % 4294967296) :=
      readU32_of_drop rfl
    simp only [decompressV1, h5, ho]
    norm_num
  · rw [hCleg, hCm, decompress_v1_dispatch _ (by simp; omega),
      decompress_v2_mode1_dispatch _ _ _ ho]
    have hd12m : (MAGIC ++ [2, 1] ++ le32 origLen ++ le16 table.length ++
        (table ++ (le32 runs.length ++ runs.flatMap (runRecord 1)))).drop 12 =
        table ++ (le32 runs.length ++ runs.flatMap (runRecord 1)) := rfl
    rw [hmmod, parse_table hd12m]
    have h5 : readU32 (MAGIC ++ [1] ++ (le32 origLen ++ (le16 table.length ++ ([w] ++
        ((table.zip freqs).flatMap (fun p => p.1 :: p.2) ++
          (le32 runs.length ++ runs.flatMap (runRecord 1))))))) 5 =
        .ok (origLen % 4294967296) :=
      readU32_of_drop rfl
    have h9 : readU16 (MAGIC ++ [1] ++ (le32 origLen ++ (le16 table.length ++ ([w] ++
        ((table.zip freqs).flatMap (fun p => p.1 :: p.2) ++
          (le32 runs.length ++ runs.flatMap (runRecord 1))))))) 9 =
        .ok (table.length % 65536) :=
      readU16_of_drop rfl
    have hd12l : (MAGIC ++ [1] ++ (le32 origLen ++ (le16 table.length ++ ([w] ++
        ((table.zip freqs).flatMap (fun p => p.1 :: p.2) ++
          (le32 runs.length ++ runs.flatMap (runRecord 1))))))).drop 12 =
        (table.zip freqs).flatMap (fun p => p.1 :: p.2) ++
          (le32 runs.length ++ runs.flatMap (runRecord 1)) := rfl
    have htabl := legacy_table_parse table freqs _ 12 _ hf hf4 hd12l
    have hinter := interleave_length table freqs hf hf4
    have hd5N : (MAGIC ++ [1] ++ (le32 origLen ++ (le16 table.length ++ ([w] ++
        ((table.zip freqs).flatMap (fun p => p.1 :: p.2) ++
          (le32 runs.length ++ runs.flatMap (runRecord 1))))))).drop
          (12 + 5 * table.length) =
        le32 runs.length ++ runs.flatMap (runRecord 1) :=
      drop_of_drop hd12l hinter
    have hR32l : readU32 (MAGIC ++ [1] ++ (le32 origLen ++ (le16 table.length ++ ([w] ++
        ((table.zip freqs).flatMap (fun p => p.1 :: p.2) ++
          (le32 runs.length ++ runs.flatMap (runRecord 1))))))) (12 + 5 * table.length) =
        .ok (runs.length % 4294967296) :=
      readU32_of_drop hd5N
    have hdrecl : (MAGIC ++ [1] ++ (le32 origLen ++ (le16 table.length ++ ([w] ++
        ((table.zip freqs).flatMap (fun p => p.1 :: p.2) ++
          (le32 runs.length ++ runs.flatMap (runRecord 1))))))).drop
          (12 + 5 * table.length + 4) =
        runs.flatMap (runRecord 1) :=
      drop_of_drop hd5N (length_le32 runs.length)
    have hdNm : (MAGIC ++ [2, 1] ++ le32 origLen ++ le16 table.length ++
        (table ++ (le32 runs.length ++ runs.flatMap (runRecord 1)))).drop
          (12 + table.length) =
        le32 runs.length ++ runs.flatMap (runRecord 1) :=
      drop_of_drop hd12m rfl
    have hR32m : readU32 (MAGIC ++ [2, 1] ++ le32 origLen ++ le16 table.length ++
        (table ++ (le32 runs.length ++ runs.flatMap (runRecord 1))))
          (12 + table.length) =
        .ok (runs.length % 4294967296) :=
      readU32_of_drop hdNm
    have hdrecm : (MAGIC ++ [2, 1] ++ le32 origLen ++ le16 table.length ++
        (table ++ (le32 runs.length ++ runs.flatMap (runRecord 1)))).drop
          (12 + table.length + 4) =
        runs.flatMap (runRecord 1) :=
      drop_of_drop hdNm (length_le32 runs.length)
    have hwrbpi : (w + 7) / 8 = 1 := by omega
    have hbits1 := bitsPerIndex_pos table.length
    have hbits8 := bitsPerIndex_le_eight hN
    have hmrbpi : (bitsPerIndex table.length + 7) / 8 = 1 := by omega
    have hloopeq := readRunsLoop_congr 1 table (origLen % 4294967296)
      (runs.length % 4294967296) _ _ (12 + 5 * table.length + 4) (12 + table.length + 4)
      [] (hdrecl.trans hdrecm.symm)
    simp only [decompressV1, decompressMode1, h5, ho, if_false, h9, hmmod, htabl,
      show byteGet (MAGIC ++ [1] ++ (le32 origLen ++ (le16 table.length ++ ([w] ++
        ((table.zip freqs).flatMap (fun p => p.1 :: p.2) ++
          (le32 runs.length ++ runs.flatMap (runRecord 1))))))) 11 = w from rfl,
      hwrbpi, hmrbpi, hR32l, hR32m, hloopeq]

/-- C7 witness: a concrete legacy container (nonzero frequency bytes)
and its modern equivalent decode identically. -/
theorem C7_witness :
    decompress (mkLegacyContainer 3 [65, 70] [[9, 9, 9, 9], [8, 8, 8, 8]] 1
        [(0, 2), (1, 1)]) =
      decompress (mkMode1Container 3 [65, 70] [(0, 2), (1, 1)]) :=
  C7_legacy_decodes_like_modern 3 1 [65, 70] [[9, 9, 9, 9], [8, 8, 8, 8]]
    [(0, 2), (1, 1)] (by decide) (by decide) (by decide) (by decide) (by decide)

/-! ## Bit-packing correctness (mode 0) -/

theorem getD_replicate_zero (z j : Nat) : (List.replicate z 0).getD j 0 = 0 := by
  rcases Nat.lt_or_ge j z with h | h
  · simp [List.getD_eq_getElem?_getD, List.getElem?_replicate, h]
  · simp [List.getD_eq_getElem?_getD, List.getElem?_replicate, Nat.not_lt.2 h]

theorem regionBit_replicate_zero (z j : Nat) :
    regionBit (List.replicate z 0) j = false := by
  simp [regionBit, byteGet, getD_replicate_zero]

@[simp] theorem length_orAt (l : List Nat) (i v : Nat) :
    (orAt l i v).length = l.length := by
  simp [orAt]

theorem byteGet_orAt_self {l : List Nat} {i : Nat} (v : Nat) (h : i < l.length) :
    byteGet (orAt l i v) i = byteGet l i ||| v := by
  simp only [orAt, byteGet]
  rw [getD_set_self (by simpa using h)]

theorem byteGet_orAt_ne {l : List Nat} {i k : Nat} (v : Nat) (h : k ≠ i) :
    byteGet (orAt l i v) k = byteGet l k := by
  simp only [orAt, byteGet]
  rw [getD_set_ne (fun he => h he.symm)]

theorem getD_mem_or_zero (l : List Nat) (i : Nat) :
    l.getD i 0 ∈ l ∨ l.getD i 0 = 0 := by
  rcases Nat.lt_or_ge i l.length with h | h
  · left
    rw [List.getD_eq_getElem _ _ h]
    exact l.getElem_mem h
  · right
    rw [List.getD_eq_getElem?_getD, List.getElem?_eq_none h]
    rfl

theorem mem_orAt_lt {l : List Nat} (hl : ∀ b ∈ l, b < 256) {i v : Nat}
    (hv : v < 256) : ∀ b ∈ orAt l i v, b < 256 := by
  intro b hb
  rcases List.mem_or_eq_of_mem_set hb with h | rfl
  · exact hl b h
  · have hold : l.getD i 0 < 256 := by
      rcases getD_mem_or_zero l i with h | h
      · exact hl _ h
      · omega
    have h28 : (256 : Nat) = 2 ^ 8 := by norm_num
    rw [h28] at hold hv ⊢
    exact Nat.or_lt_two_pow hold hv

theorem land_255_lt (x : Nat) : x &&& 255 < 256 := by
  have h : x &&& 255 < 2 ^ 8 := by
    apply Nat.and_lt_two_pow
    norm_num
  omega

/-- Bits of the first (low) write value of `packWrite`. -/
theorem testBit_low_write (idx o t : Nat) :
    ((idx <<< o) &&& 255).testBit t =
      (decide (o ≤ t) && decide (t < 8) && idx.testBit (t - o)) := by
  rw [Nat.testBit_land, Nat.testBit_shiftLeft,
    show (255 : Nat) = 2 ^ 8 - 1 from rfl, Nat.testBit_two_pow_sub_one]
  rcases Nat.decLe o t with h | h <;> rcases Nat.decLt t 8 with h2 | h2 <;>
    simp [h, h2, ge_iff_le] <;> omega

/-- Bits of the overlap (high) write value of `packWrite`. -/
theorem testBit_high_write (idx d t : Nat) :
    ((idx >>> d) &&& 255).testBit t =
      (decide (t < 8) && idx.testBit (d + t)) := by
  rw [Nat.testBit_land, Nat.testBit_shiftRight,
    show (255 : Nat) = 2 ^ 8 - 1 from rfl, Nat.testBit_two_pow_sub_one]
  rcases Nat.decLt t 8 with h2 | h2 <;> simp [h2]

theorem testBit_eq_false_of_ge {idx : Nat} {b : Nat} {t : Nat} (h : idx < 2 ^ b)
    (hle : b ≤ t) : idx.testBit t = false :=
  Nat.testBit_lt_two_pow
    (lt_of_lt_of_le h (Nat.pow_le_pow_right (by norm_num) hle))

/-- One bit-packed write ORs exactly the bits of `idx` into positions
`[p, p + bits)` of the region and leaves every other bit unchanged. -/
theorem packWrite_spec (out : List Nat) (p bits idx : Nat)
    (hb1 : 1 ≤ bits) (hb8 : bits ≤ 8) (hidx : idx < 2 ^ bits)
    (hbytes : ∀ b ∈ out, b < 256) (hfit : p + bits ≤ 8 * out.length) :
    (packWrite out 0 p bits idx).length = out.length ∧
    (∀ b ∈ packWrite out 0 p bits idx, b < 256) ∧
    (∀ j, regionBit (packWrite out 0 p bits idx) j =
      (regionBit out j || (decide (p ≤ j) && idx.testBit (j - p)))) := by
  have ho8 : p % 8 < 8 := Nat.mod_lt _ (by norm_num)
  have hpBo : 8 * (p / 8) + p % 8 = p := Nat.div_add_mod p 8
  have hno3 : ¬ 16 < p % 8 + bits := by omega
  have hBlt : p / 8 < out.length := by omega
  rw [packWrite]
  simp only [Nat.zero_add, if_neg hno3]
  by_cases hov : 8 < p % 8 + bits
  · have hB1lt : p / 8 + 1 < out.length := by omega
    rw [if_pos hov]
    refine ⟨by simp, ?_, ?_⟩
    · exact mem_orAt_lt (mem_orAt_lt hbytes (land_255_lt _)) (land_255_lt _)
    · intro j
      have hj8 : j % 8 < 8 := Nat.mod_lt _ (by norm_num)
      have hjBo : 8 * (j / 8) + j % 8 = j := Nat.div_add_mod j 8
      simp only [regionBit]
      by_cases hjB : j / 8 = p / 8
      · have e1 : byteGet (orAt (orAt out (p / 8) (idx <<< (p % 8) &&& 255))
            (p / 8 + 1) (idx >>> (8 - p % 8) &&& 255)) (j / 8) =
            byteGet (orAt out (p / 8) (idx <<< (p % 8) &&& 255)) (j / 8) :=
          byteGet_orAt_ne _ (by omega)
        have e2 : byteGet (orAt out (p / 8) (idx <<< (p % 8) &&& 255)) (j / 8) =
            byteGet out (j / 8) ||| (idx <<< (p % 8) &&& 255) := by
          rw [hjB]
          exact byteGet_orAt_self _ hBlt
        rw [e1, e2, Nat.testBit_lor, testBit_low_write]
        by_cases hle : p % 8 ≤ j % 8
        · have h1 : p ≤ j := by omega
          have h2 : j % 8 - p % 8 = j - p := by omega
          simp [hle, h1, h2, hj8]
        · have h1 : ¬ p ≤ j := by omega
          simp [hle, h1]
      · by_cases hjB1 : j / 8 = p / 8 + 1
        · have e1 : byteGet (orAt (orAt out (p / 8) (idx <<< (p % 8) &&& 255))
              (p / 8 + 1) (idx >>> (8 - p % 8) &&& 255)) (j / 8) =
              byteGet (orAt out (p / 8) (idx <<< (p % 8) &&& 255)) (j / 8) |||
                (idx >>> (8 - p % 8) &&& 255) := by
            rw [hjB1]
            exact byteGet_orAt_self _ (by simpa using hB1lt)
          have e2 : byteGet (orAt out (p / 8) (idx <<< (p % 8) &&& 255)) (j / 8) =
              byteGet out (j / 8) :=
            byteGet_orAt_ne _ (by omega)
          rw [e1, e2, Nat.testBit_lor, testBit_high_write]
          have h1 : p ≤ j := by omega
          have h2 : 8 - p % 8 + j % 8 = j - p := by omega
          simp [h1, h2, hj8]
        · have e1 : byteGet (orAt (orAt out (p / 8) (idx <<< (p % 8) &&& 255))
              (p / 8 + 1) (idx >>> (8 - p % 8) &&& 255)) (j / 8) =
              byteGet (orAt out (p / 8) (idx <<< (p % 8) &&& 255)) (j / 8) :=
            byteGet_orAt_ne _ (by omega)
          have e2 : byteGet (orAt out (p / 8) (idx <<< (p % 8) &&& 255)) (j / 8) =
              byteGet out (j / 8) :=
            byteGet_orAt_ne _ (by omega)
          rw [e1, e2]
          have hfalse : (decide (p ≤ j) && idx.testBit (j - p)) = false := by
            by_cases hple : p ≤ j
            · by_cases hlt : j - p < bits
              · exfalso
                apply hjB1
                omega
              · have ht : idx.testBit (j - p) = false :=
                  testBit_eq_false_of_ge hidx (by omega)
                simp [ht]
            · simp [hple]
          rw [hfalse, Bool.or_false]
  · rw [if_neg hov]
    refine ⟨by simp, mem_orAt_lt hbytes (land_255_lt _), ?_⟩
    intro j
    have hj8 : j % 8 < 8 := Nat.mod_lt _ (by norm_num)
    have hjBo : 8 * (j / 8) + j % 8 = j := Nat.div_add_mod j 8
    simp only [regionBit]
    by_cases hjB : j / 8 = p / 8
    · have e2 : byteGet (orAt out (p / 8) (idx <<< (p % 8) &&& 255)) (j / 8) =
          byteGet out (j / 8) ||| (idx <<< (p % 8) &&& 255) := by
        rw [hjB]
        exact byteGet_orAt_self _ hBlt
      rw [e2, Nat.testBit_lor, testBit_low_write]
      by_cases hle : p % 8 ≤ j % 8
      · have h1 : p ≤ j := by omega
        have h2 : j % 8 - p % 8 = j - p := by omega
        simp [hle, h1, h2, hj8]
      · have h1 : ¬ p ≤ j := by omega
        simp [hle, h1]
    · have e2 : byteGet (orAt out (p / 8) (idx <<< (p % 8) &&& 255)) (j / 8) =
          byteGet out (j / 8) :=
        byteGet_orAt_ne _ (by omega)
      rw [e2]
      have hfalse : (decide (p ≤ j) && idx.testBit (j - p)) = false := by
        by_cases hple : p ≤ j
        · by_cases hlt : j - p < bits
          · exfalso
            apply hjB
            omega
          · have ht : idx.testBit (j - p) = false :=
              testBit_eq_false_of_ge hidx (by omega)
            simp [ht]
        · simp [hple]
      rw [hfalse, Bool.or_false]

/-- The packing loop lays the indices down contiguously, `bits` bits each,
starting at bit `p`, leaving earlier bits untouched and later bits clear. -/
theorem packLoop_spec (bits : Nat) (hb1 : 1 ≤ bits) (hb8 : bits ≤ 8) :
    ∀ (idxs : List Nat) (out : List Nat) (p : Nat),
      (∀ i ∈ idxs, i < 2 ^ bits) →
      (∀ b ∈ out, b < 256) →
      p + bits * idxs.length ≤ 8 * out.length →
      (∀ j, p ≤ j → regionBit out j = false) →
      (packLoop 0 bits idxs out p).length = out.length ∧
      (∀ b ∈ packLoop 0 bits idxs out p, b < 256) ∧
      (∀ j, regionBit (packLoop 0 bits idxs out p) j =
        if j < p then regionBit out j
        else if j < p + bits * idxs.length then
          (idxs.getD ((j - p) / bits) 0).testBit ((j - p) % bits)
        else false) := by
  intro idxs
  induction idxs with
  | nil =>
    intro out p _ hbytes _ hzero
    refine ⟨rfl, hbytes, ?_⟩
    intro j
    show regionBit out j = _
    by_cases h1 : j < p
    · simp [h1]
    · rw [if_neg h1, if_neg (by simp; omega), hzero j (by omega)]
  | cons idx rest ih =>
    intro out p hidx hbytes hfit hzero
    have hidxhead : idx < 2 ^ bits := hidx idx (List.mem_cons_self _ _)
    simp only [List.length_cons, Nat.mul_succ] at hfit
    obtain ⟨hl1, hm1, hc1⟩ := packWrite_spec out p bits idx hb1 hb8 hidxhead
      hbytes (by omega)
    obtain ⟨hl2, hm2, hc2⟩ := ih (packWrite out 0 p bits idx) (p + bits)
      (fun i hi => hidx i (List.mem_cons_of_mem _ hi)) hm1
      (by rw [hl1]; omega)
      (by
        intro j hj
        rw [hc1 j, hzero j (by omega)]
        have ht : idx.testBit (j - p) = false :=
          testBit_eq_false_of_ge hidxhead (by omega)
        simp [ht])
    have hstep : packLoop 0 bits (idx :: rest) out p =
        packLoop 0 bits rest (packWrite out 0 p bits idx) (p + bits) := rfl
    refine ⟨by rw [hstep, hl2, hl1], by rw [hstep]; exact hm2, ?_⟩
    intro j
    rw [hstep, hc2 j, hc1 j]
    simp only [List.length_cons, Nat.mul_succ]
    by_cases h1 : j < p
    · rw [if_pos (show j < p + bits by omega), if_pos h1]
      simp [show ¬ p ≤ j from by omega]
    · by_cases h2 : j < p + bits
      · rw [if_pos h2, if_neg h1, if_pos (by omega), hzero j (by omega)]
        have hd : (j - p) / bits = 0 := Nat.div_eq_of_lt (by omega)
        have hm : (j - p) % bits = j - p := Nat.mod_eq_of_lt (by omega)
        rw [hd, hm]
        simp [show p ≤ j from by omega]
      · rw [if_neg h2, if_neg h1]
        by_cases h3 : j < p + bits + bits * rest.length
        · rw [if_pos h3, if_pos (by omega)]
          have e1 : j - p = (j - (p + bits)) + bits := by omega
          rw [e1, Nat.add_div_right _ (by omega), Nat.add_mod_right]
          rfl
        · rw [if_neg h3, if_neg (by omega)]

/-- One packed-symbol read recovers the index whose bits occupy positions
`[p, p + bits)` of the region following `pre`. -/
theorem unpackOne_spec (pre region : List Nat) (bits idx p : Nat)
    (uniq : List Nat)
    (hb1 : 1 ≤ bits) (hb8 : bits ≤ 8) (hidx : idx < 2 ^ bits)
    (hbytes : ∀ b ∈ region, b < 256)
    (hfit : p + bits ≤ 8 * region.length)
    (hbits : ∀ t, t < bits → regionBit region (p + t) = idx.testBit t) :
    unpackOne (pre ++ region) pre.length bits (2 ^ bits - 1) p uniq =
      uniq.getD idx 0 := by
  have ho8 : p % 8 < 8 := Nat.mod_lt _ (by norm_num)
  have hBlt : p / 8 < region.length := by omega
  have hlen : (pre ++ region).length = pre.length + region.length := by simp
  have hget : ∀ q, byteGet (pre ++ region) (pre.length + q) = byteGet region q := by
    intro q
    rw [byteGet_append_right _ (by omega)]
    congr 1
    omega
  have hget1 : byteGet (pre ++ region) (pre.length + p / 8 + 1) =
      byteGet region (p / 8 + 1) := by
    rw [Nat.add_assoc]
    exact hget _
  have hB256 : byteGet region (p / 8) < 256 := by
    rcases getD_mem_or_zero region (p / 8) with h | h
    · exact hbytes _ h
    · rw [byteGet, h]
      norm_num
  have hno3 : ¬ (16 < p % 8 + bits ∧
      pre.length + p / 8 + 2 < (pre ++ region).length) := by
    intro hcon
    omega
  simp only [unpackOne, if_neg hno3]
  by_cases hov : 8 < p % 8 + bits
  · have hg : 8 < p % 8 + bits ∧
        pre.length + p / 8 + 1 < (pre ++ region).length := ⟨hov, by rw [hlen]; omega⟩
    rw [if_pos hg, hget (p / 8), hget1]
    congr 1
    apply Nat.eq_of_testBit_eq
    intro t
    simp only [Nat.testBit_land, Nat.testBit_lor, Nat.testBit_shiftLeft,
      Nat.testBit_shiftRight, Nat.testBit_two_pow_sub_one]
    by_cases ht : t < bits
    · by_cases hot : p % 8 + t < 8
      · have hdiv : (p + t) / 8 = p / 8 := by omega
        have hmod : (p + t) % 8 = p % 8 + t := by omega
        have hr1 : (byteGet region (p / 8)).testBit (p % 8 + t) = idx.testBit t := by
          have hh := hbits t ht
          rw [regionBit, hdiv, hmod] at hh
          exact hh
        simp [hr1, ht, show ¬ (8 - p % 8 ≤ t) from by omega]
      · have hfb : (byteGet region (p / 8)).testBit (p % 8 + t) = false :=
          testBit_eq_false_of_ge (b := 8) (by
            norm_num
            omega) (by omega)
        have hdiv : (p + t) / 8 = p / 8 + 1 := by omega
        have hmod : (p + t) % 8 = p % 8 + t - 8 := by omega
        have hr1 : (byteGet region (p / 8 + 1)).testBit (p % 8 + t - 8) =
            idx.testBit t := by
          have hh := hbits t ht
          rw [regionBit, hdiv, hmod] at hh
          exact hh
        have harg : t - (8 - p % 8) = p % 8 + t - 8 := by omega
        simp [hfb, ht, harg, hr1, show (8 - p % 8 ≤ t) from by omega]
    · have hfi : idx.testBit t = false := testBit_eq_false_of_ge hidx (by omega)
      simp [ht, hfi]
  · rw [if_neg (fun hc => hov hc.1), hget (p / 8)]
    congr 1
    apply Nat.eq_of_testBit_eq
    intro t
    simp only [Nat.testBit_land, Nat.testBit_shiftRight,
      Nat.testBit_two_pow_sub_one]
    by_cases ht : t < bits
    · have hdiv : (p + t) / 8 = p / 8 := by omega
      have hmod : (p + t) % 8 = p % 8 + t := by omega
      have hr1 : (byteGet region (p / 8)).testBit (p % 8 + t) = idx.testBit t := by
        have hh := hbits t ht
        rw [regionBit, hdiv, hmod] at hh
        exact hh
      simp [hr1, ht]
    · have hfi : idx.testBit t = false := testBit_eq_false_of_ge hidx (by omega)
      simp [ht, hfi]

/-- The unpack loop reads back the whole index stream laid down in the
region, mapping each index through the symbol table. -/
theorem unpackLoop_spec (pre region : List Nat) (bits : Nat) (uniq F : List Nat)
    (hb1 : 1 ≤ bits) (hb8 : bits ≤ 8)
    (hFlt : ∀ i ∈ F, i < 2 ^ bits)
    (hbytes : ∀ b ∈ region, b < 256)
    (hbits : ∀ m, m < F.length → ∀ t, t < bits →
      regionBit region (bits * m + t) = (F.getD m 0).testBit t)
    (hfit : bits * F.length ≤ 8 * region.length) :
    ∀ (n i : Nat), i + n = F.length →
      unpackLoop (pre ++ region) pre.length bits (2 ^ bits - 1) uniq n (bits * i) =
        (F.drop i).map (fun x => uniq.getD x 0) := by
  intro n
  induction n with
  | zero =>
    intro i hi
    rw [Nat.add_zero] at hi
    rw [hi, List.drop_length]
    rfl
  | succ m ih =>
    intro i hi
    have hiF : i < F.length := by omega
    have hmul : bits * (i + 1) ≤ bits * F.length :=
      Nat.mul_le_mul_left bits (by omega)
    rw [Nat.mul_succ] at hmul
    rw [List.drop_eq_getElem_cons hiF, List.map_cons]
    show unpackOne (pre ++ region) pre.length bits (2 ^ bits - 1) (bits * i) uniq ::
        unpackLoop (pre ++ region) pre.length bits (2 ^ bits - 1) uniq m
          (bits * i + bits) = _
    have hgF : F.getD i 0 = F[i] := List.getD_eq_getElem F 0 hiF
    have hhead := unpackOne_spec pre region bits (F.getD i 0) (bits * i) uniq
      hb1 hb8 (hgF ▸ hFlt F[i] (F.getElem_mem hiF)) hbytes (by omega)
      (fun t ht => hbits i hiF t ht)
    rw [hhead, hgF]
    congr 1
    rw [← Nat.mul_succ]
    exact ih (i + 1) (by omega)

theorem orAt_append (pre l : List Nat) (j v : Nat) :
    orAt (pre ++ l) (pre.length + j) v = pre ++ orAt l j v := by
  unfold orAt
  have hg : (pre ++ l).getD (pre.length + j) 0 = l.getD j 0 := by
    rw [List.getD_append_right _ _ _ _ (by omega)]
    congr 1
    omega
  rw [hg, List.set_append, if_neg (by omega)]
  have hidx : pre.length + j - pre.length = j := by omega
  rw [hidx]

theorem packWrite_append (pre l : List Nat) (p bits idx : Nat) :
    packWrite (pre ++ l) pre.length p bits idx =
      pre ++ packWrite l 0 p bits idx := by
  simp only [packWrite, Nat.zero_add]
  by_cases c3 : 16 < p % 8 + bits
  · have c2 : 8 < p % 8 + bits := by omega
    rw [if_pos c2, if_pos c2, if_pos c3, if_pos c3, orAt_append,
      Nat.add_assoc pre.length (p / 8) 1, orAt_append,
      Nat.add_assoc pre.length (p / 8) 2, orAt_append]
  · by_cases c2 : 8 < p % 8 + bits
    · rw [if_pos c2, if_pos c2, if_neg c3, if_neg c3, orAt_append,
        Nat.add_assoc pre.length (p / 8) 1, orAt_append]
    · rw [if_neg c2, if_neg c2, if_neg c3, if_neg c3, orAt_append]

theorem packLoop_append (bits : Nat) :
    ∀ (idxs : List Nat) (pre l : List Nat) (p : Nat),
      packLoop pre.length bits idxs (pre ++ l) p =
        pre ++ packLoop 0 bits idxs l p := by
  intro idxs
  induction idxs with
  | nil => intro pre l p; rfl
  | cons idx rest ih =>
    intro pre l p
    show packLoop pre.length bits rest
        (packWrite (pre ++ l) pre.length p bits idx) (p + bits) = _
    rw [packWrite_append, ih]
    rfl

/-- `encodeMode0` in dispatch-ready form: the 12-byte header, the symbol
table, and the packed region built from a zero-initialised buffer. -/
theorem encodeMode0_eq (data uniq : List Nat) (bits : Nat) :
    encodeMode0 data uniq bits =
      MAGIC ++ [VERSION, 0] ++ le32 data.length ++ le16 uniq.length ++
        (uniq ++ packLoop 0 bits (data.map (fun b => uniq.indexOf b))
          (List.replicate ((data.length * bits + 7) / 8) 0) 0) := by
  unfold encodeMode0
  have hpre : (MAGIC ++ [VERSION, 0] ++ le32 data.length ++ le16 uniq.length ++
      uniq).length = 12 + uniq.length := by
    simp [MAGIC]
    omega
  show packLoop (12 + uniq.length) bits (data.map (fun b => uniq.indexOf b))
      (MAGIC ++ [VERSION, 0] ++ le32 data.length ++ le16 uniq.length ++ uniq ++
        List.replicate ((data.length * bits + 7) / 8) 0) 0 = _
  have hcomm := packLoop_append bits (data.map (fun b => uniq.indexOf b))
    (MAGIC ++ [VERSION, 0] ++ le32 data.length ++ le16 uniq.length ++ uniq)
    (List.replicate ((data.length * bits + 7) / 8) 0) 0
  rw [hpre] at hcomm
  rw [hcomm]
  simp [List.append_assoc]

theorem mem_uniqueBytesOf {data : List Nat} {b : Nat} (hb : b < 256)
    (hmem : b ∈ data) : b ∈ uniqueBytesOf data := by
  simp [uniqueBytesOf, List.mem_filter, List.mem_range, hb, hmem]

theorem length_uniqueBytesOf_le (data : List Nat) :
    (uniqueBytesOf data).length ≤ 256 := by
  simpa [uniqueBytesOf] using List.length_filter_le _ (List.range 256)

theorem getD_indexOf {l : List Nat} {b : Nat} (h : b ∈ l) :
    l.getD (l.indexOf b) 0 = b := by
  have hlt : l.indexOf b < l.length := List.indexOf_lt_length.mpr h
  rw [List.getD_eq_getElem _ _ hlt]
  exact List.getElem_indexOf hlt

/-- Decoding a mode-0 container produced by `encodeMode0` restores the
input exactly. -/
theorem decompress_encodeMode0 (data uniq : List Nat)
    (hN : uniq.length ≤ 256)
    (hmem : ∀ b ∈ data, b ∈ uniq)
    (hne : data.length ≠ 0) (hlen : data.length < 4294967296) :
    decompress (encodeMode0 data uniq (bitsPerIndex uniq.length)) = .ok data := by
  have hb1 : 1 ≤ bitsPerIndex uniq.length := bitsPerIndex_pos _
  have hb8 : bitsPerIndex uniq.length ≤ 8 := bitsPerIndex_le_eight hN
  have hNle : uniq.length ≤ 2 ^ bitsPerIndex uniq.length := le_two_pow_bitsPerIndex _
  have hfitz : bitsPerIndex uniq.length * data.length ≤
      8 * ((data.length * bitsPerIndex uniq.length + 7) / 8) := by
    rw [Nat.mul_comm]
    generalize data.length * bitsPerIndex uniq.length = x
    omega
  obtain ⟨hlreg, hmreg, hcreg⟩ := packLoop_spec (bitsPerIndex uniq.length) hb1 hb8
    (data.map (fun b => uniq.indexOf b))
    (List.replicate ((data.length * bitsPerIndex uniq.length + 7) / 8) 0) 0
    (by
      intro i hi
      obtain ⟨b, hbmem, rfl⟩ := List.mem_map.mp hi
      exact lt_of_lt_of_le (List.indexOf_lt_length.mpr (hmem b hbmem)) hNle)
    (by
      intro b hb
      rw [List.eq_of_mem_replicate hb]
      norm_num)
    (by simpa using hfitz)
    (fun j _ => regionBit_replicate_zero _ j)
  rw [encodeMode0_eq, show (VERSION : Nat) = 2 from rfl,
    decompress_v2_mode0_dispatch _ _ _ (by rw [Nat.mod_eq_of_lt hlen]; exact hne)]
  rw [Nat.mod_eq_of_lt hlen, Nat.mod_eq_of_lt (show uniq.length < 65536 by omega)]
  have hd12 : (MAGIC ++ [2, 0] ++ le32 data.length ++ le16 uniq.length ++
      (uniq ++ packLoop 0 (bitsPerIndex uniq.length)
        (data.map (fun b => uniq.indexOf b))
        (List.replicate ((data.length * bitsPerIndex uniq.length + 7) / 8) 0) 0)).drop
        12 =
      uniq ++ packLoop 0 (bitsPerIndex uniq.length)
        (data.map (fun b => uniq.indexOf b))
        (List.replicate ((data.length * bitsPerIndex uniq.length + 7) / 8) 0) 0 := rfl
  rw [parse_table hd12]
  simp only [decompressMode0, Nat.one_shiftLeft]
  have hCsplit : MAGIC ++ [2, 0] ++ le32 data.length ++ le16 uniq.length ++
      (uniq ++ packLoop 0 (bitsPerIndex uniq.length)
        (data.map (fun b => uniq.indexOf b))
        (List.replicate ((data.length * bitsPerIndex uniq.length + 7) / 8) 0) 0) =
      (MAGIC ++ [2, 0] ++ le32 data.length ++ le16 uniq.length ++ uniq) ++
        packLoop 0 (bitsPerIndex uniq.length)
          (data.map (fun b => uniq.indexOf b))
          (List.replicate ((data.length * bitsPerIndex uniq.length + 7) / 8) 0) 0 := by
    simp [List.append_assoc]
  have hprelen : (MAGIC ++ [2, 0] ++ le32 data.length ++ le16 uniq.length ++
      uniq).length = 12 + uniq.length := by
    simp [MAGIC]
    omega
  rw [hCsplit, ← hprelen]
  have hmain := unpackLoop_spec
    (MAGIC ++ [2, 0] ++ le32 data.length ++ le16 uniq.length ++ uniq)
    (packLoop 0 (bitsPerIndex uniq.length) (data.map (fun b => uniq.indexOf b))
      (List.replicate ((data.length * bitsPerIndex uniq.length + 7) / 8) 0) 0)
    (bitsPerIndex uniq.length) uniq (data.map (fun b => uniq.indexOf b))
    hb1 hb8
    (by
      intro i hi
      obtain ⟨b, hbmem, rfl⟩ := List.mem_map.mp hi
      exact lt_of_lt_of_le (List.indexOf_lt_length.mpr (hmem b hbmem)) hNle)
    hmreg
    (by
      intro m hm t ht
      have hmul : bitsPerIndex uniq.length * (m + 1) ≤
          bitsPerIndex uniq.length * (data.map (fun b => uniq.indexOf b)).length :=
        Nat.mul_le_mul_left _ (by omega)
      rw [Nat.mul_succ] at hmul
      rw [hcreg (bitsPerIndex uniq.length * m + t), if_neg (by omega),
        if_pos (by omega)]
      have hdiv : (bitsPerIndex uniq.length * m + t - 0) / bitsPerIndex uniq.length
          = m := by
        rw [Nat.sub_zero, Nat.mul_add_div (by omega), Nat.div_eq_of_lt ht,
          Nat.add_zero]
      have hmod : (bitsPerIndex uniq.length * m + t - 0) % bitsPerIndex uniq.length
          = t := by
        rw [Nat.sub_zero, Nat.mul_add_mod, Nat.mod_eq_of_lt ht]
      rw [hdiv, hmod])
    (by
      rw [hlreg]
      simpa using hfitz)
    data.length 0 (by simp)
  rw [Nat.mul_zero] at hmain
  rw [hmain, List.drop_zero, List.map_map]
  congr 1
  have hco : ∀ b ∈ data,
      ((fun x => uniq.getD x 0) ∘ (fun b => uniq.indexOf b)) b = b := by
    intro b hb
    simp only [Function.comp_apply]
    exact getD_indexOf (hmem b hb)
  rw [List.map_congr_left hco, List.map_id']

/-! ## RLE encoder correctness (mode 1) -/

/-- Expanding the runs produced by the RLE walk (through any symbol
decoding `f`) recovers the pending run followed by the mapped remainder. -/
theorem rleLoop_expand (uniq : List Nat) (f : Nat → Nat) :
    ∀ (rest : List Nat) (cur cnt : Nat), 1 ≤ cnt → cnt ≤ 65535 →
      (rleLoop uniq rest cur cnt).flatMap (fun r => List.replicate r.2 (f r.1)) =
        List.replicate cnt (f cur) ++ rest.map (fun b => f (uniq.indexOf b)) := by
  intro rest
  induction rest with
  | nil =>
    intro cur cnt _ _
    simp [rleLoop]
  | cons b tl ih =>
    intro cur cnt h1 h2
    show (if uniq.indexOf b = cur ∧ cnt < 65535 then rleLoop uniq tl cur (cnt + 1)
        else (cur, cnt) :: rleLoop uniq tl (uniq.indexOf b) 1).flatMap
        (fun r => List.replicate r.2 (f r.1)) = _
    by_cases hc : uniq.indexOf b = cur ∧ cnt < 65535
    · rw [if_pos hc, ih cur (cnt + 1) (by omega) (by omega)]
      rw [List.replicate_succ' cnt (f cur), List.map_cons, hc.1]
      simp [List.append_assoc]
    · rw [if_neg hc, List.flatMap_cons,
        ih (uniq.indexOf b) 1 (by omega) (by omega)]
      simp

/-- Every run the RLE walk emits has an in-table index and a count in
`[1, 65535]`. -/
theorem rleLoop_bounds (uniq : List Nat) (n : Nat) :
    ∀ (rest : List Nat) (cur cnt : Nat), cur < n → 1 ≤ cnt → cnt ≤ 65535 →
      (∀ b ∈ rest, uniq.indexOf b < n) →
      ∀ r ∈ rleLoop uniq rest cur cnt, r.1 < n ∧ 1 ≤ r.2 ∧ r.2 ≤ 65535 := by
  intro rest
  induction rest with
  | nil =>
    intro cur cnt hcur h1 h2 _ r hr
    simp only [rleLoop, List.mem_singleton] at hr
    subst hr
    exact ⟨hcur, h1, h2⟩
  | cons b tl ih =>
    intro cur cnt hcur h1 h2 hmem r hr
    rw [show rleLoop uniq (b :: tl) cur cnt =
        (if uniq.indexOf b = cur ∧ cnt < 65535 then rleLoop uniq tl cur (cnt + 1)
          else (cur, cnt) :: rleLoop uniq tl (uniq.indexOf b) 1) from rfl] at hr
    by_cases hc : uniq.indexOf b = cur ∧ cnt < 65535
    · rw [if_pos hc] at hr
      exact ih cur (cnt + 1) hcur (by omega) (by omega)
        (fun x hx => hmem x (List.mem_cons_of_mem _ hx)) r hr
    · rw [if_neg hc] at hr
      rcases List.mem_cons.mp hr with rfl | hr2
      · exact ⟨hcur, h1, h2⟩
      · exact ih (uniq.indexOf b) 1 (hmem b (List.mem_cons_self _ _)) (by omega)
          (by omega) (fun x hx => hmem x (List.mem_cons_of_mem _ hx)) r hr2

/-- The RLE walk emits at most one run per remaining input byte. -/
theorem rleLoop_length_le (uniq : List Nat) :
    ∀ (rest : List Nat) (cur cnt : Nat),
      (rleLoop uniq rest cur cnt).length ≤ 1 + rest.length := by
  intro rest
  induction rest with
  | nil => intro cur cnt; simp [rleLoop]
  | cons b tl ih =>
    intro cur cnt
    show (if uniq.indexOf b = cur ∧ cnt < 65535 then rleLoop uniq tl cur (cnt + 1)
        else (cur, cnt) :: rleLoop uniq tl (uniq.indexOf b) 1).length ≤ _
    by_cases hc : uniq.indexOf b = cur ∧ cnt < 65535
    · rw [if_pos hc]
      have := ih cur (cnt + 1)
      simp only [List.length_cons]
      omega
    · rw [if_neg hc]
      have := ih (uniq.indexOf b) 1
      simp only [List.length_cons]
      omega

/-- The counts of the emitted runs sum to the pending count plus the
remaining length. -/
theorem rleLoop_sum (uniq : List Nat) (rest : List Nat) (cur cnt : Nat)
    (h1 : 1 ≤ cnt) (h2 : cnt ≤ 65535) :
    ((rleLoop uniq rest cur cnt).map Prod.snd).sum = cnt + rest.length := by
  have hexp := congrArg List.length (rleLoop_expand uniq (fun i => i) rest cur cnt h1 h2)
  rw [expand_runs_length (rleLoop uniq rest cur cnt) (fun i => i)] at hexp
  simpa using hexp

/-- Decoding a mode-1 container produced by `encodeMode1` restores the
input exactly. -/
theorem decompress_encodeMode1 (d : Nat) (rest : List Nat) (uniq : List Nat)
    (hN : uniq.length ≤ 256)
    (hmem : ∀ b ∈ d :: rest, b ∈ uniq)
    (hlen : (d :: rest).length < 4294967296) :
    decompress (encodeMode1 (d :: rest) uniq (bitsPerIndex uniq.length)) =
      .ok (d :: rest) := by
  have hb1 : 1 ≤ bitsPerIndex uniq.length := bitsPerIndex_pos _
  have hb8 : bitsPerIndex uniq.length ≤ 8 := bitsPerIndex_le_eight hN
  have hrbpi : (bitsPerIndex uniq.length + 7) / 8 = 1 := by omega
  have hform : encodeMode1 (d :: rest) uniq (bitsPerIndex uniq.length) =
      mkMode1Container (d :: rest).length uniq
        (rleLoop uniq rest (uniq.indexOf d) 1) := by
    simp only [encodeMode1, mkMode1Container, hrbpi]
    rfl
  have hidxlt : ∀ b ∈ d :: rest, uniq.indexOf b < uniq.length :=
    fun b hb => List.indexOf_lt_length.mpr (hmem b hb)
  have hbounds := rleLoop_bounds uniq uniq.length rest (uniq.indexOf d) 1
    (hidxlt d (List.mem_cons_self _ _)) (by omega) (by omega)
    (fun b hb => hidxlt b (List.mem_cons_of_mem _ hb))
  have hsum := rleLoop_sum uniq rest (uniq.indexOf d) 1 (by omega) (by omega)
  have hrl := rleLoop_length_le uniq rest (uniq.indexOf d) 1
  rw [hform, decompress_mkMode1Container (d :: rest).length uniq
    (rleLoop uniq rest (uniq.indexOf d) 1) hN (by simp) hlen
    (by
      have := hrl
      simp only [List.length_cons] at hlen
      omega)
    (fun r hr => ⟨by have := (hbounds r hr).1; omega,
      by have := (hbounds r hr).2.2; omega⟩)
    (by rw [hsum]; simp only [List.length_cons]; omega)]
  rw [hsum]
  rw [rleLoop_expand uniq (fun i => uniq.getD i 0) rest (uniq.indexOf d) 1
    (by omega) (by omega)]
  have hpad : (d :: rest).length - (1 + rest.length) = 0 := by
    simp only [List.length_cons]
    omega
  rw [hpad, List.replicate_zero, List.append_nil]
  congr 1
  rw [List.replicate_one, getD_indexOf (hmem d (List.mem_cons_self _ _))]
  have hco : ∀ b ∈ rest, uniq.getD (uniq.indexOf b) 0 = b :=
    fun b hb => getD_indexOf (hmem b (List.mem_cons_of_mem _ hb))
  rw [List.singleton_append, List.map_congr_left hco, List.map_id']

/-! ## The compress/decompress round trip -/

theorem decompress_encodeRaw (B : List Nat) (hne : B.length ≠ 0)
    (hlen : B.length < 4294967296) :
    decompress (encodeRaw B) = .ok B := by
  unfold encodeRaw
  rw [show (VERSION : Nat) = 2 from rfl,
    decompress_v2_raw_dispatch _ _ (by rw [Nat.mod_eq_of_lt hlen]; exact hne),
    Nat.mod_eq_of_lt hlen, List.take_length]

/-- The single-buffer round trip: whichever candidate `compress` emits
(packed, RLE, raw passthrough, or the fixed empty container), `decompress`
restores the input exactly. -/
theorem decompress_compress (B : List Nat) (hB : ∀ b ∈ B, b < 256)
    (hlen : B.length < 4294967296) :
    decompress (compress B) = .ok B := by
  rcases B with _ | ⟨d, rest⟩
  · rfl
  · have hN : (uniqueBytesOf (d :: rest)).length ≤ 256 :=
      length_uniqueBytesOf_le (d :: rest)
    have hmem : ∀ b ∈ d :: rest, b ∈ uniqueBytesOf (d :: rest) :=
      fun b hb => mem_uniqueBytesOf (hB b hb) hb
    unfold compress
    rw [if_neg (by simp)]
    dsimp only
    split <;> split
    · exact decompress_encodeRaw _ (by simp) hlen
    · exact decompress_encodeMode0 (d :: rest) (uniqueBytesOf (d :: rest)) hN
        hmem (by simp) hlen
    · exact decompress_encodeRaw _ (by simp) hlen
    · exact decompress_encodeMode1 d rest (uniqueBytesOf (d :: rest)) hN hmem hlen

/-- C1: for every byte buffer `B` (entries below 256, length below 2^32 as
stored in the 4-byte original_length field), `decompress (compress B)`
returns exactly `B`. -/
theorem C1_roundtrip (B : List Nat) (hB : ∀ b ∈ B, b < 256)
    (hlen : B.length < 4294967296) :
    decompress (compress B) = .ok B :=
  decompress_compress B hB hlen

/-- C1 witness: a concrete mixed buffer round-trips. -/
theorem C1_witness :
    decompress (compress [65, 0, 65, 255, 7]) = .ok [65, 0, 65, 255, 7] :=
  C1_roundtrip [65, 0, 65, 255, 7] (by decide) (by decide)

/-! ## Frame-sequence round trip -/

theorem compress_length_le (B : List Nat) :
    (compress B).length ≤ B.length + 11 := by
  unfold compress
  by_cases h : B.length = 0
  · rw [if_pos h]
    simp [MAGIC]
  · rw [if_neg h]
    dsimp only
    split <;> split
    all_goals first
      | (rw [length_encodeRaw]; omega)
      | omega

theorem flatMap_le32_length (ps : List Nat) :
    (ps.flatMap le32).length = 4 * ps.length := by
  induction ps with
  | nil => rfl
  | cons p tl ih =>
    simp only [List.flatMap_cons, List.length_append, length_le32, ih,
      List.length_cons]
    omega

theorem readPos_le32_head (p : Nat) (bs : List Nat) :
    readPos (le32 p ++ bs) 0 = p % 4294967296 := by
  show p % 256 + 256 * (p / 256 % 256) + 65536 * (p / 65536 % 256) +
      16777216 * (p / 16777216 % 256) = p % 4294967296
  omega

theorem readPos_le32_shift (p : Nat) (bs : List Nat) (j : Nat) :
    readPos (le32 p ++ bs) (j + 1) = readPos bs j := by
  simp only [readPos]
  have h0 : byteGet (le32 p ++ bs) (4 * (j + 1)) = byteGet bs (4 * j) := by
    rw [byteGet_append_right _ (by simp only [length_le32]; omega)]
    have hx0 : 4 * (j + 1) - (le32 p).length = 4 * j := by
      simp only [length_le32]
      omega
    rw [hx0]
  have h1 : byteGet (le32 p ++ bs) (4 * (j + 1) + 1) = byteGet bs (4 * j + 1) := by
    rw [byteGet_append_right _ (by simp only [length_le32]; omega)]
    have hx1 : 4 * (j + 1) + 1 - (le32 p).length = 4 * j + 1 := by
      simp only [length_le32]
      omega
    rw [hx1]
  have h2 : byteGet (le32 p ++ bs) (4 * (j + 1) + 2) = byteGet bs (4 * j + 2) := by
    rw [byteGet_append_right _ (by simp only [length_le32]; omega)]
    have hx2 : 4 * (j + 1) + 2 - (le32 p).length = 4 * j + 2 := by
      simp only [length_le32]
      omega
    rw [hx2]
  have h3 : byteGet (le32 p ++ bs) (4 * (j + 1) + 3) = byteGet bs (4 * j + 3) := by
    rw [byteGet_append_right _ (by simp only [length_le32]; omega)]
    have hx3 : 4 * (j + 1) + 3 - (le32 p).length = 4 * j + 3 := by
      simp only [length_le32]
      omega
    rw [hx3]
  rw [h0, h1, h2, h3]

/-- Parsing the raw little-endian uint32 positions array recovers the
position list. -/
theorem posParse : ∀ (ps : List Nat), (∀ x ∈ ps, x < 4294967296) →
    (List.range ps.length).map (readPos (ps.flatMap le32)) = ps := by
  intro ps
  induction ps with
  | nil => intro _; rfl
  | cons p tl ih =>
    intro hbound
    show (List.range (tl.length + 1)).map (readPos ((p :: tl).flatMap le32)) = p :: tl
    rw [List.range_succ_eq_map, List.map_cons, List.map_map]
    congr 1
    · rw [show (p :: tl).flatMap le32 = le32 p ++ tl.flatMap le32 from
        List.flatMap_cons .., readPos_le32_head,
        Nat.mod_eq_of_lt (hbound p (List.mem_cons_self _ _))]
    · have hstep : ∀ x ∈ List.range tl.length,
          (readPos ((p :: tl).flatMap le32) ∘ Nat.succ) x =
            readPos (tl.flatMap le32) x := by
        intro x _
        simp only [Function.comp_apply, List.flatMap_cons, Nat.succ_eq_add_one]
        exact readPos_le32_shift p _ x
      rw [List.map_congr_left hstep,
        ih (fun x hx => hbound x (List.mem_cons_of_mem _ hx))]

theorem computeDelta_positions_length_le (P C : List Nat) :
    (computeDelta P C).positions.length ≤ C.length := by
  simp only [computeDelta, List.length_append, List.length_range']
  have hf := List.length_filter_le
    (fun i => decide (byteGet P i ≠ byteGet C i)) (List.range (min P.length C.length))
  simp only [List.length_range] at hf
  omega

theorem computeDelta_values_length (P C : List Nat) :
    (computeDelta P C).values.length = (computeDelta P C).positions.length := by
  simp [computeDelta]

theorem computeDelta_values_lt (P C : List Nat) (hC : ∀ b ∈ C, b < 256) :
    ∀ v ∈ (computeDelta P C).values, v < 256 := by
  intro v hv
  obtain ⟨i, himem, rfl⟩ := List.mem_map.mp hv
  have hilt : i < C.length := computeDelta_positions_lt P C i himem
  have : byteGet C i ∈ C := by
    rw [byteGet, List.getD_eq_getElem _ _ hilt]
    exact C.getElem_mem _
  exact hC _ this

theorem length_keyUnit (f : List Nat) :
    (keyUnit f).length = 9 + (compress f).length := by
  simp [keyUnit]
  omega

theorem length_deltaUnit (d : DeltaFrame) :
    (deltaUnit d).length = 13 + 4 * d.positions.length +
      (compress d.values).length := by
  simp only [deltaUnit, List.length_append, List.length_cons, List.length_nil,
    length_le32, flatMap_le32_length]

/-- Decoding one Key unit: parse the embedded container, restore the
frame, replace the reference, and continue after the unit. -/
theorem readFrames_key_step (data : List Nat) (off : Nat) (f : List Nat)
    (rest : List Nat) (n : Nat) (ref0 : Option (List Nat))
    (acc out : List (List Nat))
    (hbytes : ∀ b ∈ f, b < 256) (hflen : f.length + 11 < 4294967296)
    (hdrop : data.drop off = keyUnit f ++ rest)
    (hrec : readFrames data n (off + 9 + (compress f).length) (some f)
      (acc ++ [f]) = .ok out) :
    readFrames data (n + 1) off ref0 acc = .ok out := by
  have hclen : (compress f).length < 4294967296 := by
    have := compress_length_le f
    omega
  have hdrop' : data.drop off = 0x4b :: (le32 (compress f).length ++
      (le32 f.length ++ (compress f ++ rest))) := by
    rw [hdrop]
    simp [keyUnit, List.append_assoc]
  have htag : byteGet data off = 0x4b := byteGet_of_drop hdrop'
  have hd1 : data.drop (off + 1) = le32 (compress f).length ++
      (le32 f.length ++ (compress f ++ rest)) :=
    drop_of_drop (l := [0x4b]) hdrop' rfl
  have hread : readU32 data (off + 1) = .ok (compress f).length := by
    rw [readU32_of_drop hd1, Nat.mod_eq_of_lt hclen]
  have hd5 : data.drop (off + 1 + 4) = le32 f.length ++ (compress f ++ rest) :=
    drop_of_drop hd1 (length_le32 _)
  have hd9 : data.drop (off + 1 + 4 + 4) = compress f ++ rest :=
    drop_of_drop hd5 (length_le32 _)
  have hd9' : data.drop (off + 9) = compress f ++ rest := by
    have h : off + 1 + 4 + 4 = off + 9 := by omega
    rwa [h] at hd9
  have hdec : decompress ((data.drop (off + 9)).take (compress f).length) =
      .ok f := by
    rw [hd9', List.take_left' rfl]
    exact decompress_compress f hbytes (by omega)
  unfold readFrames
  simp only [htag, hread, hdec]
  norm_num
  exact hrec

/-- Decoding one Delta unit: rebuild the positions and values, apply the
delta at the reference length, keep the reference, and continue. -/
theorem readFrames_delta_step (data : List Nat) (off : Nat) (r f : List Nat)
    (rest : List Nat) (n : Nat) (acc out : List (List Nat)) (L : Nat)
    (hL : L < 1073741824)
    (hbytes : ∀ b ∈ f, b < 256) (hflen : f.length = L) (hrlen : r.length = L)
    (hdrop : data.drop off = deltaUnit (computeDelta r f) ++ rest)
    (hrec : readFrames data n
      (off + 13 + 4 * (computeDelta r f).positions.length +
        (compress (computeDelta r f).values).length) (some r) (acc ++ [f]) =
      .ok out) :
    readFrames data (n + 1) off (some r) acc = .ok out := by
  have hplen : (computeDelta r f).positions.length ≤ L := by
    have := computeDelta_positions_length_le r f
    omega
  have hvlen : (computeDelta r f).values.length ≤ L := by
    have := computeDelta_values_length r f
    omega
  have hclen : (compress (computeDelta r f).values).length < 4294967296 := by
    have := compress_length_le (computeDelta r f).values
    omega
  have hpblen : ((computeDelta r f).positions.flatMap le32).length =
      4 * (computeDelta r f).positions.length :=
    flatMap_le32_length _
  have hdrop' : data.drop off = 0x44 ::
      (le32 (computeDelta r f).positions.length ++
      (le32 ((computeDelta r f).positions.flatMap le32).length ++
      (le32 (compress (computeDelta r f).values).length ++
      ((computeDelta r f).positions.flatMap le32 ++
      (compress (computeDelta r f).values ++ rest))))) := by
    rw [hdrop]
    simp [deltaUnit, List.append_assoc]
  have htag : byteGet data off = 0x44 := byteGet_of_drop hdrop'
  have hd1 : data.drop (off + 1) = le32 (computeDelta r f).positions.length ++
      (le32 ((computeDelta r f).positions.flatMap le32).length ++
      (le32 (compress (computeDelta r f).values).length ++
      ((computeDelta r f).positions.flatMap le32 ++
      (compress (computeDelta r f).values ++ rest)))) :=
    drop_of_drop (l := [0x44]) hdrop' rfl
  have hread1 : readU32 data (off + 1) =
      .ok (computeDelta r f).positions.length := by
    rw [readU32_of_drop hd1, Nat.mod_eq_of_lt (by omega)]
  have hd5 : data.drop (off + 1 + 4) =
      le32 ((computeDelta r f).positions.flatMap le32).length ++
      (le32 (compress (computeDelta r f).values).length ++
      ((computeDelta r f).positions.flatMap le32 ++
      (compress (computeDelta r f).values ++ rest))) :=
    drop_of_drop hd1 (length_le32 _)
  have hread2 : readU32 data (off + 1 + 4) =
      .ok ((computeDelta r f).positions.flatMap le32).length := by
    rw [readU32_of_drop hd5, Nat.mod_eq_of_lt (by rw [hpblen]; omega)]
  have hread2' : readU32 data (off + 5) =
      .ok ((computeDelta r f).positions.flatMap le32).length := by
    have h : off + 1 + 4 = off + 5 := by omega
    rwa [h] at hread2
  have hd9 : data.drop (off + 1 + 4 + 4) =
      le32 (compress (computeDelta r f).values).length ++
      ((computeDelta r f).positions.flatMap le32 ++
      (compress (computeDelta r f).values ++ rest)) :=
    drop_of_drop hd5 (length_le32 _)
  have hread3 : readU32 data (off + 9) =
      .ok (compress (computeDelta r f).values).length := by
    have h : off + 1 + 4 + 4 = off + 9 := by omega
    rw [h] at hd9
    rw [readU32_of_drop hd9, Nat.mod_eq_of_lt hclen]
  have hd13 : data.drop (off + 13) =
      (computeDelta r f).positions.flatMap le32 ++
      (compress (computeDelta r f).values ++ rest) := by
    have h : off + 1 + 4 + 4 = off + 9 := by omega
    rw [h] at hd9
    have h2 := drop_of_drop hd9 (length_le32 _)
    have h3 : off + 9 + 4 = off + 13 := by omega
    rwa [h3] at h2
  have hslicep : (data.drop (off + 13)).take
      ((computeDelta r f).positions.flatMap le32).length =
      (computeDelta r f).positions.flatMap le32 := by
    rw [hd13, List.take_left' rfl]
  have hdvals : data.drop (off + 13 +
      ((computeDelta r f).positions.flatMap le32).length) =
      compress (computeDelta r f).values ++ rest :=
    drop_of_drop hd13 rfl
  have hslicev : (data.drop (off + 13 +
      ((computeDelta r f).positions.flatMap le32).length)).take
      (compress (computeDelta r f).values).length =
      compress (computeDelta r f).values := by
    rw [hdvals, List.take_left' rfl]
  have hguard : 4 * (computeDelta r f).positions.length ≤
      ((data.drop (off + 13)).take
        ((computeDelta r f).positions.flatMap le32).length).length := by
    rw [hslicep, hpblen]
  have hpos : (List.range (computeDelta r f).positions.length).map
      (readPos ((data.drop (off + 13)).take
        ((computeDelta r f).positions.flatMap le32).length)) =
      (computeDelta r f).positions := by
    rw [hslicep]
    exact posParse _ (fun x hx => by
      have := computeDelta_positions_lt r f x hx
      omega)
  have hdecv : decompress ((data.drop (off + 13 +
      ((computeDelta r f).positions.flatMap le32).length)).take
      (compress (computeDelta r f).values).length) =
      .ok (computeDelta r f).values := by
    rw [hslicev]
    exact decompress_compress _ (computeDelta_values_lt r f hbytes) (by omega)
  have happly : applyDelta r
      ⟨(computeDelta r f).positions, (computeDelta r f).values⟩ r.length = f := by
    rw [hrlen, ← hflen]
    exact applyDelta_computeDelta r f hbytes
  unfold readFrames
  simp only [htag, hread1, hread2', hread3]
  rw [if_pos hguard]
  simp only [hpos, hdecv, happly]
  have hoff : off + 13 + ((computeDelta r f).positions.flatMap le32).length +
      (compress (computeDelta r f).values).length =
      off + 13 + 4 * (computeDelta r f).positions.length +
        (compress (computeDelta r f).values).length := by
    rw [hpblen]
  rw [hoff]
  exact hrec

/-- Decoding the unit stream emitted by the encode loop restores the
remaining frames, given matching reference state on both sides and frames
of one common length `L`. -/
theorem readFrames_seqLoop (L k : Nat) (hL : L < 1073741824) :
    ∀ (fs : List (List Nat)) (i : Nat) (r : List Nat) (data : List Nat)
      (off : Nat) (acc : List (List Nat)),
      (∀ f ∈ fs, f.length = L ∧ ∀ b ∈ f, b < 256) →
      r.length = L →
      data.drop off = seqLoop k fs i (some r) →
      readFrames data fs.length off (some r) acc = .ok (acc ++ fs) := by
  intro fs
  induction fs with
  | nil =>
    intro i r data off acc _ _ _
    simp [readFrames]
  | cons f fs2 ih =>
    intro i r data off acc hfs hr hdrop
    have hf := hfs f (List.mem_cons_self _ _)
    have hfs2 : ∀ g ∈ fs2, g.length = L ∧ ∀ b ∈ g, b < 256 :=
      fun g hg => hfs g (List.mem_cons_of_mem _ hg)
    have hacc : (acc ++ [f]) ++ fs2 = acc ++ f :: fs2 := by simp
    have hunfold : seqLoop k (f :: fs2) i (some r) =
        if i % k = 0 then keyUnit f ++ seqLoop k fs2 (i + 1) (some f)
        else if f.length < 2 * (computeDelta r f).positions.length then
          keyUnit f ++ seqLoop k fs2 (i + 1) (some f)
        else deltaUnit (computeDelta r f) ++ seqLoop k fs2 (i + 1) (some r) := rfl
    show readFrames data (fs2.length + 1) off (some r) acc = .ok (acc ++ f :: fs2)
    by_cases hkey : i % k = 0
    · have hdropk : data.drop off = keyUnit f ++ seqLoop k fs2 (i + 1) (some f) := by
        rw [hdrop, hunfold, if_pos hkey]
      apply readFrames_key_step data off f (seqLoop k fs2 (i + 1) (some f))
        fs2.length (some r) acc (acc ++ f :: fs2) hf.2 (by rw [hf.1]; omega) hdropk
      have hd2 : data.drop (off + (9 + (compress f).length)) =
          seqLoop k fs2 (i + 1) (some f) :=
        drop_of_drop hdropk (length_keyUnit f)
      have hoff : off + (9 + (compress f).length) = off + 9 + (compress f).length := by
        omega
      rw [hoff] at hd2
      rw [← hacc]
      exact ih (i + 1) f data _ (acc ++ [f]) hfs2 hf.1 hd2
    · by_cases hsc : f.length < 2 * (computeDelta r f).positions.length
      · have hdropk : data.drop off = keyUnit f ++ seqLoop k fs2 (i + 1) (some f) := by
          rw [hdrop, hunfold, if_neg hkey, if_pos hsc]
        apply readFrames_key_step data off f (seqLoop k fs2 (i + 1) (some f))
          fs2.length (some r) acc (acc ++ f :: fs2) hf.2 (by rw [hf.1]; omega) hdropk
        have hd2 : data.drop (off + (9 + (compress f).length)) =
            seqLoop k fs2 (i + 1) (some f) :=
          drop_of_drop hdropk (length_keyUnit f)
        have hoff : off + (9 + (compress f).length) = off + 9 + (compress f).length := by
          omega
        rw [hoff] at hd2
        rw [← hacc]
        exact ih (i + 1) f data _ (acc ++ [f]) hfs2 hf.1 hd2
      · have hdropd : data.drop off =
            deltaUnit (computeDelta r f) ++ seqLoop k fs2 (i + 1) (some r) := by
          rw [hdrop, hunfold, if_neg hkey, if_neg hsc]
        apply readFrames_delta_step data off r f (seqLoop k fs2 (i + 1) (some r))
          fs2.length acc (acc ++ f :: fs2) L hL hf.2 hf.1 hr hdropd
        have hd2 : data.drop (off + (13 + 4 * (computeDelta r f).positions.length +
            (compress (computeDelta r f).values).length)) =
            seqLoop k fs2 (i + 1) (some r) :=
          drop_of_drop hdropd (length_deltaUnit _)
        have hoff : off + (13 + 4 * (computeDelta r f).positions.length +
            (compress (computeDelta r f).values).length) =
            off + 13 + 4 * (computeDelta r f).positions.length +
              (compress (computeDelta r f).values).length := by
          omega
        rw [hoff] at hd2
        rw [← hacc]
        exact ih (i + 1) r data _ (acc ++ [f]) hfs2 hr hd2

/-- The frame-sequence round trip for frames of one common length `L`:
key units restore frames by the single-buffer round trip, delta units by
the delta invariant at the shared length. -/
theorem frameSequence_roundtrip (frames : List (List Nat)) (k L : Nat)
    (hL : L < 1073741824)
    (hframes : ∀ f ∈ frames, f.length = L ∧ ∀ b ∈ f, b < 256)
    (hcount : frames.length < 4294967296) :
    decompressFrameSequence (compressFrameSequence frames k) = .ok frames := by
  rcases frames with _ | ⟨f0, fs⟩
  · rfl
  · have hf0 := hframes f0 (List.mem_cons_self _ _)
    have hfs : ∀ g ∈ fs, g.length = L ∧ ∀ b ∈ g, b < 256 :=
      fun g hg => hframes g (List.mem_cons_of_mem _ hg)
    unfold compressFrameSequence
    rw [if_neg (by simp)]
    have hCassoc : le32 (f0 :: fs).length ++ le32 k ++ seqLoop k (f0 :: fs) 0 none =
        le32 (f0 :: fs).length ++ (le32 k ++ seqLoop k (f0 :: fs) 0 none) := by
      simp [List.append_assoc]
    rw [hCassoc]
    unfold decompressFrameSequence
    rw [if_neg (by simp)]
    have h32 : readU32 (le32 (f0 :: fs).length ++
        (le32 k ++ seqLoop k (f0 :: fs) 0 none)) 0 = .ok (f0 :: fs).length := by
      have h := readU32_of_drop (d := le32 (f0 :: fs).length ++
        (le32 k ++ seqLoop k (f0 :: fs) 0 none)) (o := 0)
        (v := (f0 :: fs).length) (r := le32 k ++ seqLoop k (f0 :: fs) 0 none) rfl
      rwa [Nat.mod_eq_of_lt hcount] at h
    rw [h32]
    have hseq0 : seqLoop k (f0 :: fs) 0 none =
        keyUnit f0 ++ seqLoop k fs 1 (some f0) := by
      show (if 0 % k = 0 then keyUnit f0 ++ seqLoop k fs 1 (some f0) else _) = _
      rw [if_pos (Nat.zero_mod k)]
    have hdrop8 : (le32 (f0 :: fs).length ++
        (le32 k ++ seqLoop k (f0 :: fs) 0 none)).drop 8 =
        keyUnit f0 ++ seqLoop k fs 1 (some f0) := by
      show seqLoop k (f0 :: fs) 0 none = _
      exact hseq0
    show readFrames _ (fs.length + 1) 8 none [] = _
    apply readFrames_key_step _ 8 f0 (seqLoop k fs 1 (some f0)) fs.length none []
      (f0 :: fs) hf0.2 (by rw [hf0.1]; omega) hdrop8
    have hd2 : (le32 (f0 :: fs).length ++
        (le32 k ++ seqLoop k (f0 :: fs) 0 none)).drop (8 + (9 + (compress f0).length)) =
        seqLoop k fs 1 (some f0) :=
      drop_of_drop hdrop8 (length_keyUnit f0)
    have hoff : 8 + (9 + (compress f0).length) = 8 + 9 + (compress f0).length := by
      omega
    rw [hoff] at hd2
    have hmain := readFrames_seqLoop L k hL fs 1 f0
      (le32 (f0 :: fs).length ++ (le32 k ++ seqLoop k (f0 :: fs) 0 none))
      (8 + 9 + (compress f0).length) ([] ++ [f0]) hfs hf0.1 hd2
    rw [hmain]
    simp

/-- C2 amended: for every list of frames all of one common length (below
2^30 bytes, entries below 256) and every keyframe interval `k ≥ 1`,
`decompressFrameSequence (compressFrameSequence F k)` returns exactly `F`.
For frames of differing lengths the round trip fails (see the
counterexample): delta frames are rebuilt at the reference length. -/
theorem C2_frameSequence_roundtrip (frames : List (List Nat)) (k L : Nat)
    (hk : 1 ≤ k) (hL : L < 1073741824)
    (hframes : ∀ f ∈ frames, f.length = L ∧ ∀ b ∈ f, b < 256)
    (hcount : frames.length < 4294967296) :
    decompressFrameSequence (compressFrameSequence frames k) = .ok frames :=
  frameSequence_roundtrip frames k L hL hframes hcount

/-- C2 amended witness: three equal-length frames round-trip with
keyframe interval 2. -/
theorem C2_witness :
    decompressFrameSequence
      (compressFrameSequence [[1, 2, 3], [1, 2, 4], [9, 2, 4]] 2) =
      .ok [[1, 2, 3], [1, 2, 4], [9, 2, 4]] :=
  C2_frameSequence_roundtrip [[1, 2, 3], [1, 2, 4], [9, 2, 4]] 2 3
    (by decide) (by decide) (by decide) (by decide)

end Luxbin
